import Mathlib

/-!
Shallow embedding of the array engine of this uiua fork (src/array.rs and
src/algorithm/dyadic/mod.rs): shapes, flat row-major data buffers, and the
dyadic structural operations (reshape, keep and its inverse, rotate,
windows, find, member, index_of, matrix multiplication), together with
proofs about the claims of the specification.

Arrays are modelled as a shape (a list of dimension sizes) plus a flat
data list; machine indices become Nat, signed amounts become Int.
Operations that can raise a user error or panic in the source return
Option, with none standing for both outcomes (comments at each definition
say which).  Metadata (flags, map keys, label) is modelled by a separate
structure and only threaded through the operations whose claims mention it.
-/

namespace UiuaSpec

/-- Splits a list into consecutive chunks of length n, the final chunk
being shorter when n does not divide the length.  Mirrors the Rust slice
chunks iterator; Rust panics for n = 0, a state the callers below never
reach (the embedding returns the empty list there). -/
def chunks (n : Nat) (l : List α) : List (List α) :=
  if h : n = 0 ∨ l.length = 0 then []
  else l.take n :: chunks n (l.drop n)
termination_by l.length
decreasing_by
  simp only [not_or] at h
  have hn : 0 < n := Nat.pos_of_ne_zero h.1
  have hl : 0 < l.length := Nat.pos_of_ne_zero h.2
  simpa using Nat.sub_lt hl hn

/-- Embeds fn rotate(by, shape, data) of dyadic/mod.rs: rotate the leading
axis by the first offset using the reverse-reverse-reverse idiom, then
recurse into the row chunks with the remaining offsets. -/
def rotateData (k : List Int) (shape : List Nat) (data : List α) : List α :=
  match k, shape with
  | [], _ => data
  | _, [] => data
  | off :: krest, rc :: srest =>
    if rc = 0 then data
    else
      let rowLen := srest.prod
      let mid := (((rc : Int) + off).emod (rc : Int)).toNat
      let d := ((data.take (mid * rowLen)).reverse ++ (data.drop (mid * rowLen)).reverse).reverse
      if krest = [] ∨ srest = [] then d
      else ((chunks rowLen d).map fun c => rotateData krest srest c).flatten

/-- Embeds fn fill_shift of dyadic/mod.rs: overwrite the positions vacated
by a shift with the fill value, recursing like rotate. -/
def fillShift (k : List Int) (shape : List Nat) (data : List α) (fill : α) : List α :=
  match k, shape with
  | [], _ => data
  | _, [] => data
  | off :: krest, rc :: srest =>
    if rc = 0 then data
    else
      let rowLen := srest.prod
      let d :=
        if off = 0 then data
        else
          let ab := off.natAbs * rowLen
          if 0 < off then
            data.take (data.length - ab) ++ List.replicate (data.length - (data.length - ab)) fill
          else
            List.replicate (min ab data.length) fill ++ data.drop (min ab data.length)
      if krest = [] ∨ srest = [] then d
      else ((chunks rowLen d).map fun c => fillShift krest srest c fill).flatten

/-- An array: a shape and a flat row-major data buffer (struct Array of
array.rs, without the metadata, which MArr below adds). -/
structure Arr (α : Type) where
  shape : List Nat
  data : List α
deriving Repr, DecidableEq

/-- Rank (Array::rank). -/
def Arr.rank (a : Arr α) : Nat := a.shape.length

/-- Row count (Array::row_count): first dimension, or 1 for a scalar. -/
def Arr.rowCount (a : Arr α) : Nat := a.shape.headD 1

/-- Row length (Array::row_len): product of the non-leading dimensions. -/
def Arr.rowLen (a : Arr α) : Nat := a.shape.tail.prod

/-- The shape invariant of validate_shape in array.rs. -/
def Arr.valid (a : Arr α) : Prop := a.shape.prod = a.data.length

/-- The data slice of row i (Array::row_slice). -/
def Arr.rowSliceData (a : Arr α) (i : Nat) : List α :=
  (a.data.drop (i * a.rowLen)).take a.rowLen

/-- All row slices in order (Array::row_slices). -/
def Arr.rowSlices (a : Arr α) : List (List α) :=
  (List.range a.rowCount).map a.rowSliceData

/-- Embeds Array::rotate_depth at depth 0 (rotate proper).  With both
depths 0 the prefix comparison of depth_slices is trivially satisfied, the
whole buffer is the single chunk, and the callback checks the rank of the
rotation amount before calling rotate (and fill_shift when a scalar fill is
available).  none models the user errors raised by the callback. -/
def rotateArr (k : Arr Int) (fill : Option α) (a : Arr α) : Option (Arr α) :=
  let aLen := a.shape.prod
  let bLen := k.shape.prod
  if aLen = 0 ∨ bLen = 0 then some a
  else if 1 < k.shape.length then none
  else if a.shape.length < k.data.length then none
  else
    let d := rotateData k.data a.shape a.data
    let d :=
      match fill with
      | some f => fillShift k.data a.shape d f
      | none => d
    some ⟨a.shape, d⟩

/-- The negated rotation amount used by the round-trip claim. -/
def negArr (k : Arr Int) : Arr Int := ⟨k.shape, k.data.map fun x => -x⟩

/-! ### Support lemmas about chunks and rotation -/

theorem chunks_nil (n : Nat) : chunks n ([] : List α) = [] := by
  rw [chunks]; simp

theorem chunks_cons (n : Nat) (l : List α) (hn : n ≠ 0) (hl : l ≠ []) :
    chunks n l = l.take n :: chunks n (l.drop n) := by
  rw [chunks]
  rw [dif_neg]
  simp [hn, List.length_eq_zero, hl]

theorem chunks_zero (l : List α) : chunks 0 l = [] := by
  rw [chunks]; simp

theorem flatten_chunks_of_le (n : Nat) (hn : n ≠ 0) :
    ∀ (m : Nat) (l : List α), l.length ≤ m → (chunks n l).flatten = l := by
  intro m
  induction m with
  | zero =>
    intro l hl
    have hl0 : l = [] := List.length_eq_zero.mp (Nat.le_zero.mp hl)
    subst hl0
    simp [chunks_nil]
  | succ m ih =>
    intro l hl
    by_cases hle : l = []
    · subst hle; simp [chunks_nil]
    · rw [chunks_cons n l hn hle, List.flatten_cons,
        ih (l.drop n) (by
          have h1 : 1 ≤ l.length := List.length_pos.mpr hle
          have h2 : 1 ≤ n := Nat.one_le_iff_ne_zero.mpr hn
          simp only [List.length_drop]
          omega),
        List.take_append_drop]

theorem flatten_chunks (n : Nat) (hn : n ≠ 0) (l : List α) :
    (chunks n l).flatten = l :=
  flatten_chunks_of_le n hn l.length l le_rfl

theorem chunks_mem_length (n : Nat) (hn : n ≠ 0) :
    ∀ (rc : Nat) (l : List α), l.length = rc * n → ∀ c ∈ chunks n l, c.length = n := by
  intro rc
  induction rc with
  | zero =>
    intro l hl c hc
    have hl0 : l = [] := List.length_eq_zero.mp (by simpa using hl)
    subst hl0
    simp [chunks_nil] at hc
  | succ rc ih =>
    intro l hl c hc
    have hlen : n ≤ l.length := by
      rw [hl, Nat.succ_mul]; omega
    have hlne : l ≠ [] := by
      intro h; subst h
      simp at hlen
      exact hn hlen
    rw [chunks_cons n l hn hlne] at hc
    rcases List.mem_cons.mp hc with h | h
    · subst h
      simp [List.length_take, Nat.min_eq_left hlen]
    · exact ih (l.drop n) (by simp [hl, Nat.succ_mul]) c h

theorem chunks_flatten_eq (n : Nat) (hn : n ≠ 0) :
    ∀ (C : List (List α)), (∀ c ∈ C, c.length = n) → chunks n C.flatten = C := by
  intro C
  induction C with
  | nil => simp [chunks_nil]
  | cons c C ih =>
    intro hC
    have hc : c.length = n := hC c (List.mem_cons_self ..)
    have hcne : c ≠ [] := by
      intro h; subst h
      exact hn (by simpa using hc.symm)
    have hne : c ++ C.flatten ≠ [] := by
      simp [hcne]
    rw [List.flatten_cons, chunks_cons n _ hn hne]
    congr 1
    · exact List.take_left' hc
    · rw [List.drop_left' hc]
      exact ih fun x hx => hC x (List.mem_cons_of_mem _ hx)

theorem flatten_take (n : Nat) :
    ∀ (m : Nat) (C : List (List α)), (∀ c ∈ C, c.length = n) →
      (C.take m).flatten = C.flatten.take (m * n) := by
  intro m
  induction m with
  | zero => simp
  | succ m ih =>
    intro C hC
    cases C with
    | nil => simp
    | cons c C =>
      have hc : c.length = n := hC c (List.mem_cons_self ..)
      simp only [List.take_succ_cons, List.flatten_cons]
      have e1 : c.take ((m + 1) * n) = c :=
        List.take_of_length_le (by rw [hc, Nat.succ_mul]; omega)
      have e2 : (m + 1) * n - c.length = m * n := by rw [hc, Nat.succ_mul]; omega
      rw [ih C fun x hx => hC x (List.mem_cons_of_mem _ hx),
        List.take_append_eq_append_take, e1, e2]

theorem flatten_drop (n : Nat) :
    ∀ (m : Nat) (C : List (List α)), (∀ c ∈ C, c.length = n) →
      (C.drop m).flatten = C.flatten.drop (m * n) := by
  intro m
  induction m with
  | zero => simp
  | succ m ih =>
    intro C hC
    cases C with
    | nil => simp
    | cons c C =>
      have hc : c.length = n := hC c (List.mem_cons_self ..)
      simp only [List.drop_succ_cons, List.flatten_cons]
      have e1 : c.drop ((m + 1) * n) = [] :=
        List.drop_of_length_le (by rw [hc, Nat.succ_mul]; omega)
      have e2 : (m + 1) * n - c.length = m * n := by rw [hc, Nat.succ_mul]; omega
      rw [ih C fun x hx => hC x (List.mem_cons_of_mem _ hx),
        List.drop_append_eq_append_drop, e1, e2, List.nil_append]

theorem chunks_count (n : Nat) (hn : n ≠ 0) :
    ∀ (rc : Nat) (l : List α), l.length = rc * n → (chunks n l).length = rc := by
  intro rc
  induction rc with
  | zero =>
    intro l hl
    have hl0 : l = [] := List.length_eq_zero.mp (by simpa using hl)
    subst hl0
    simp [chunks_nil]
  | succ rc ih =>
    intro l hl
    have hlen : n ≤ l.length := by rw [hl, Nat.succ_mul]; omega
    have hlne : l ≠ [] := by
      intro h; subst h
      simp at hlen
      exact hn hlen
    rw [chunks_cons n l hn hlne, List.length_cons,
      ih (l.drop n) (by simp [hl, Nat.succ_mul])]

theorem three_reverse (m : Nat) (l : List α) :
    ((l.take m).reverse ++ (l.drop m).reverse).reverse = l.drop m ++ l.take m := by
  simp

/-- Unfolding rotateData: an empty offset list is a no-op. -/
theorem rotateData_nil (s : List Nat) (d : List α) : rotateData [] s d = d := by
  simp [rotateData]

theorem rotateData_nil_shape (k : List Int) (d : List α) : rotateData k [] d = d := by
  cases k <;> simp [rotateData]

theorem rotateData_cons_zero (off : Int) (krest : List Int) (srest : List Nat)
    (d : List α) : rotateData (off :: krest) (0 :: srest) d = d := by
  simp [rotateData]

theorem rotateData_cons_flat (off : Int) (krest : List Int) (rc : Nat)
    (srest : List Nat) (d : List α) (hrc : rc ≠ 0) (hbr : krest = [] ∨ srest = []) :
    rotateData (off :: krest) (rc :: srest) d =
      d.drop ((((rc : Int) + off).emod (rc : Int)).toNat * srest.prod) ++
        d.take ((((rc : Int) + off).emod (rc : Int)).toNat * srest.prod) := by
  simp only [rotateData, three_reverse, if_neg hrc, if_pos hbr]

theorem rotateData_cons_deep (off : Int) (krest : List Int) (rc : Nat)
    (srest : List Nat) (d : List α) (hrc : rc ≠ 0) (hk : krest ≠ []) (hs : srest ≠ []) :
    rotateData (off :: krest) (rc :: srest) d =
      ((chunks srest.prod
          (d.drop ((((rc : Int) + off).emod (rc : Int)).toNat * srest.prod) ++
            d.take ((((rc : Int) + off).emod (rc : Int)).toNat * srest.prod))).map
        fun c => rotateData krest srest c).flatten := by
  simp only [rotateData, three_reverse, if_neg hrc]
  rw [if_neg (by simp [hk, hs])]

/-- Rotation preserves the buffer length on shape-consistent data. -/
theorem rotateData_length (k : List Int) :
    ∀ (s : List Nat) (d : List α), d.length = s.prod →
      (rotateData k s d).length = d.length := by
  induction k with
  | nil => intro s d _; rw [rotateData_nil]
  | cons off krest ih =>
    intro s d hd
    cases s with
    | nil => rw [rotateData_nil_shape]
    | cons rc srest =>
      by_cases hrc : rc = 0
      · subst hrc; rw [rotateData_cons_zero]
      · have hd' : d.length = rc * srest.prod := by rw [hd, List.prod_cons]
        by_cases hbr : krest = [] ∨ srest = []
        · rw [rotateData_cons_flat off krest rc srest d hrc hbr]
          simp only [List.length_append, List.length_drop, List.length_take]
          omega
        · push_neg at hbr
          rw [rotateData_cons_deep off krest rc srest d hrc hbr.1 hbr.2]
          by_cases hn0 : srest.prod = 0
          · have hd0 : d = [] := List.length_eq_zero.mp (by rw [hd', hn0]; ring)
            subst hd0
            simp [hn0, chunks_zero]
          · set n := srest.prod with hn
            set d2 := d.drop ((((rc : Int) + off).emod (rc : Int)).toNat * n) ++
              d.take ((((rc : Int) + off).emod (rc : Int)).toNat * n) with hd2
            have hd2len : d2.length = d.length := by
              rw [hd2]
              simp only [List.length_append, List.length_drop, List.length_take]
              omega
            have hCmem : ∀ c ∈ chunks n d2, c.length = n :=
              chunks_mem_length n hn0 rc d2 (by rw [hd2len, hd'])
            rw [List.length_flatten, List.map_map]
            have hmap : List.map (List.length ∘ fun c => rotateData krest srest c)
                (chunks n d2) = List.map List.length (chunks n d2) :=
              List.map_congr_left fun c hc => by
                simpa using ih srest c (by rw [hCmem c hc])
            rw [hmap, ← List.length_flatten, flatten_chunks n hn0 d2, hd2len]

/-- A double rotation whose offsets cancel restores the list. -/
theorem rotl_rotl_cancel (j1 j2 : Nat) (l : List α) (h1 : j1 ≤ l.length)
    (hsum : j1 + j2 = 0 ∨ j1 + j2 = l.length) :
    (l.drop j1 ++ l.take j1).drop j2 ++ (l.drop j1 ++ l.take j1).take j2 = l := by
  have e1 : l.drop j1 ++ l.take j1 = l.rotate j1 :=
    (List.rotate_eq_drop_append_take h1).symm
  have hlr : (l.rotate j1).length = l.length := by simp
  have h2 : j2 ≤ (l.rotate j1).length := by rw [hlr]; omega
  rw [e1, (List.rotate_eq_drop_append_take h2).symm, List.rotate_rotate]
  rcases hsum with h | h
  · have hj1 : j1 = 0 := by omega
    have hj2 : j2 = 0 := by omega
    rw [hj1, hj2, List.rotate_zero]
  · rw [h, List.rotate_length]

/-- The two mid points of a rotation and of its negated rotation cancel
modulo the axis length. -/
theorem mid_sum (rc : Nat) (hrc : rc ≠ 0) (off : Int) :
    (((rc : Int) + off).emod (rc : Int)).toNat +
      (((rc : Int) + -off).emod (rc : Int)).toNat = 0 ∨
    (((rc : Int) + off).emod (rc : Int)).toNat +
      (((rc : Int) + -off).emod (rc : Int)).toNat = rc := by
  have hrcI : (0 : Int) < (rc : Int) := by
    have := Nat.pos_of_ne_zero hrc
    exact_mod_cast this
  set a := ((rc : Int) + off).emod (rc : Int) with ha
  set b := ((rc : Int) + -off).emod (rc : Int) with hb
  have ha0 : 0 ≤ a := Int.emod_nonneg _ (by omega)
  have hb0 : 0 ≤ b := Int.emod_nonneg _ (by omega)
  have ha1 : a < (rc : Int) := Int.emod_lt_of_pos _ hrcI
  have hb1 : b < (rc : Int) := Int.emod_lt_of_pos _ hrcI
  have hmod : (a + b) % (rc : Int) = 0 := by
    have h1 : a + b =
        ((rc : Int) + off) % (rc : Int) + ((rc : Int) + -off) % (rc : Int) := rfl
    rw [h1, Int.emod_add_emod, Int.add_emod_emod]
    have h2 : (rc : Int) + off + ((rc : Int) + -off) = 2 * (rc : Int) := by ring
    rw [h2, Int.mul_emod_left]
  have hdvd : (rc : Int) ∣ a + b := Int.dvd_of_emod_eq_zero hmod
  rcases hdvd with ⟨c, hc⟩
  have hc0 : 0 ≤ c := by nlinarith
  have hc2 : c < 2 := by nlinarith
  interval_cases c
  · left; omega
  · right; omega

/-- Rotating by k and then by the pointwise negation of k restores the data
buffer, for any buffer consistent with the shape. -/
theorem rotateData_roundtrip (k : List Int) :
    ∀ (s : List Nat) (d : List α), d.length = s.prod →
      rotateData (k.map fun x => -x) s (rotateData k s d) = d := by
  induction k with
  | nil => intro s d _; rw [List.map_nil, rotateData_nil, rotateData_nil]
  | cons off krest ih =>
    intro s d hd
    cases s with
    | nil => rw [List.map_cons, rotateData_nil_shape, rotateData_nil_shape]
    | cons rc srest =>
      rw [List.map_cons]
      by_cases hrc : rc = 0
      · subst hrc; rw [rotateData_cons_zero, rotateData_cons_zero]
      · have hd' : d.length = rc * srest.prod := by rw [hd, List.prod_cons]
        set n := srest.prod with hn
        set m1 := (((rc : Int) + off).emod (rc : Int)).toNat with hm1
        set m2 := (((rc : Int) + -off).emod (rc : Int)).toNat with hm2
        have hrcI : (0 : Int) < (rc : Int) := by
          have := Nat.pos_of_ne_zero hrc; exact_mod_cast this
        have hmlt1 : m1 < rc := by
          have h0 : 0 ≤ ((rc : Int) + off).emod (rc : Int) :=
            Int.emod_nonneg _ (by omega)
          have h1 : ((rc : Int) + off).emod (rc : Int) < (rc : Int) :=
            Int.emod_lt_of_pos _ hrcI
          omega
        have hmlt2 : m2 < rc := by
          have h0 : 0 ≤ ((rc : Int) + -off).emod (rc : Int) :=
            Int.emod_nonneg _ (by omega)
          have h1 : ((rc : Int) + -off).emod (rc : Int) < (rc : Int) :=
            Int.emod_lt_of_pos _ hrcI
          omega
        have hsum : m1 + m2 = 0 ∨ m1 + m2 = rc := mid_sum rc hrc off
        by_cases hbr : krest = [] ∨ srest = []
        · have hbr2 : (krest.map fun x => -x) = [] ∨ srest = [] := by
            rcases hbr with h | h
            · left; simp [h]
            · right; exact h
          rw [rotateData_cons_flat off krest rc srest d hrc hbr,
            rotateData_cons_flat (-off) _ rc srest _ hrc hbr2]
          apply rotl_rotl_cancel (m1 * n) (m2 * n) d
          · calc m1 * n ≤ rc * n := Nat.mul_le_mul_right n (Nat.le_of_lt hmlt1)
            _ = d.length := hd'.symm
          · rcases hsum with h | h
            · left
              have e1 : m1 = 0 := by omega
              have e2 : m2 = 0 := by omega
              rw [e1, e2]
              simp
            · right
              rw [← Nat.add_mul, h, hd']
        · push_neg at hbr
          have hk2 : (krest.map fun x => -x) ≠ [] := by simp [hbr.1]
          rw [rotateData_cons_deep off krest rc srest d hrc hbr.1 hbr.2,
            rotateData_cons_deep (-off) _ rc srest _ hrc hk2 hbr.2]
          by_cases hn0 : n = 0
          · have hd0 : d = [] := List.length_eq_zero.mp (by rw [hd', hn0]; ring)
            subst hd0
            simp [← hn, hn0, chunks_zero]
          · -- chunk-level reasoning
            set C := chunks n d with hC
            have hCmem : ∀ c ∈ C, c.length = n := chunks_mem_length n hn0 rc d hd'
            have hCflat : C.flatten = d := flatten_chunks n hn0 d
            have hClen : C.length = rc := chunks_count n hn0 rc d hd'
            set CC := C.drop m1 ++ C.take m1 with hCC
            have hCCmem : ∀ c ∈ CC, c.length = n := by
              intro c hc
              rcases List.mem_append.mp hc with h | h
              · exact hCmem c (List.mem_of_mem_drop h)
              · exact hCmem c (List.mem_of_mem_take h)
            have step1 : chunks n (d.drop (m1 * n) ++ d.take (m1 * n)) = CC := by
              have e1 : (C.drop m1).flatten = d.drop (m1 * n) := by
                rw [flatten_drop n m1 C hCmem, hCflat]
              have e2 : (C.take m1).flatten = d.take (m1 * n) := by
                rw [flatten_take n m1 C hCmem, hCflat]
              rw [← e1, ← e2, ← List.flatten_append]
              exact chunks_flatten_eq n hn0 CC hCCmem
            rw [step1]
            set f := fun c : List α => rotateData krest srest c with hf
            set D := CC.map f with hD
            have hDmem : ∀ c ∈ D, c.length = n := by
              intro c hc
              rcases List.mem_map.mp hc with ⟨x, hx, hxe⟩
              rw [← hxe, hf]
              rw [rotateData_length krest srest x (by rw [hCCmem x hx, hn])]
              exact hCCmem x hx
            have step2 : chunks n (D.flatten.drop (m2 * n) ++ D.flatten.take (m2 * n)) =
                D.drop m2 ++ D.take m2 := by
              have e1 : (D.drop m2).flatten = D.flatten.drop (m2 * n) :=
                flatten_drop n m2 D hDmem
              have e2 : (D.take m2).flatten = D.flatten.take (m2 * n) :=
                flatten_take n m2 D hDmem
              rw [← e1, ← e2, ← List.flatten_append]
              apply chunks_flatten_eq n hn0
              intro c hc
              rcases List.mem_append.mp hc with h | h
              · exact hDmem c (List.mem_of_mem_drop h)
              · exact hDmem c (List.mem_of_mem_take h)
            rw [step2, hD, ← List.map_drop, ← List.map_take, ← List.map_append,
              List.map_map]
            have step3 : List.map ((fun c => rotateData (krest.map fun x => -x) srest c) ∘ f)
                (CC.drop m2 ++ CC.take m2) = CC.drop m2 ++ CC.take m2 := by
              have : ∀ c ∈ CC.drop m2 ++ CC.take m2,
                  ((fun c => rotateData (krest.map fun x => -x) srest c) ∘ f) c = id c := by
                intro c hc
                have hcc : c ∈ CC := by
                  rcases List.mem_append.mp hc with h | h
                  · exact List.mem_of_mem_drop h
                  · exact List.mem_of_mem_take h
                simp only [Function.comp_apply, hf, id]
                exact ih srest c (by rw [hCCmem c hcc, hn])
              rw [List.map_congr_left this, List.map_id]
            rw [step3, hCC]
            have step4 : (C.drop m1 ++ C.take m1).drop m2 ++
                (C.drop m1 ++ C.take m1).take m2 = C :=
              rotl_rotl_cancel m1 m2 C (by omega) (by omega)
            rw [step4, hCflat]

/-- C3: for every array A of rectangular shape and every integer axis-offset
array k of rank at most 1 and length at most rank(A), with no fill value
available, rotating by k and then by -k restores A exactly. -/
theorem C3_rotate_roundtrip (k : Arr Int) (a : Arr α)
    (hva : a.valid) (hk : k.shape.length ≤ 1)
    (hlen : k.data.length ≤ a.shape.length) :
    (rotateArr k none a).bind (rotateArr (negArr k) (none : Option α)) = some a := by
  have hd : a.data.length = a.shape.prod := hva.symm
  have hk1 : ¬1 < k.shape.length := by omega
  have hlen1 : ¬a.shape.length < k.data.length := by omega
  by_cases h0 : a.shape.prod = 0 ∨ k.shape.prod = 0
  · simp only [rotateArr, negArr, if_pos h0, Option.some_bind]
  · simp only [rotateArr, negArr, if_neg h0, if_neg hk1, if_neg hlen1,
      Option.some_bind, List.length_map]
    exact congrArg some ((congrArg (Arr.mk a.shape)
      (rotateData_roundtrip k.data a.shape a.data hd)).trans rfl)

/-! ### keep and its inverse -/

/-- Embeds Array::row (metadata elided): a scalar clones itself, otherwise
row i is the i-th row slice with the leading dimension removed. -/
def Arr.row (a : Arr α) (i : Nat) : Arr α :=
  match a.shape with
  | [] => a
  | _ :: rest => ⟨rest, (a.data.drop (i * rest.prod)).take rest.prod⟩

/-- The rows of an array in order (Array::rows / into_rows). -/
def Arr.rowsList (a : Arr α) : List (Arr α) :=
  (List.range a.rowCount).map a.row

/-- The first m elements of the infinite cyclic repetition of l; empty when
l is empty, matching the Rust cycle of an empty iterator. -/
def cycleTake (l : List Nat) (m : Nat) : List Nat :=
  if l.length = 0 then [] else (List.range m).map fun i => l.getD (i % l.length) 0

/-- Embeds the get_count closure of Array::list_keep: positions inside
counts read counts, later positions read the fill counts array cyclically
by its row count.  The Rust code panics when the fill lookup is out of
range or the fill row count is zero; those states return 0 here and are
not reached by the theorems below. -/
def getCount (counts : List Nat) (fill : Option (Arr Nat)) (i : Nat) : Nat :=
  if i < counts.length then counts.getD i 0
  else
    match fill with
    | some f => f.data.getD ((i - counts.length) % f.rowCount) 0
    | none => 0

/-- Overwrites data[pos .. pos + seg.length) with seg (the element-by-element
row copy of the in-place keep pass). -/
def setSeg (d : List α) (pos : Nat) (seg : List α) : List α :=
  d.take pos ++ seg ++ d.drop (pos + seg.length)

/-- Embeds the general (non-boolean) pass of Array::list_keep: scan the
rows, compacting in place while the write head stays behind the read head,
and fall back to a full copy (the break of the labelled block) as soon as a
write would overtake unread source rows. -/
def keepGo (cnt : Nat → Nat) (rowLen rowCount : Nat) :
    Nat → Nat → Nat → List α → List α
  | r, src, dest, data =>
    if _h : r < rowCount then
      let count := cnt r
      if count = 0 then keepGo cnt rowLen rowCount (r + 1) (src + 1) dest data
      else if src + 1 < dest + count then
        data.take (dest * rowLen) ++
          ((List.range (rowCount - r)).map fun j =>
            (List.replicate (cnt (r + j))
              ((data.drop ((src + j) * rowLen)).take rowLen)).flatten).flatten
      else
        let seg := (data.drop (src * rowLen)).take rowLen
        let start := if src = dest then 1 else 0
        let data2 := (List.range' start (count - start)).foldl
          (fun d c => setSeg d ((dest + c) * rowLen) seg) data
        keepGo cnt rowLen rowCount (r + 1) (src + 1) (dest + count) data2
    else data
termination_by r => rowCount - r

/-- Embeds Array::list_keep.  none models the user errors (counts longer
than the row count; missing fill while counts are shorter) and the panic on
assigning shape[0] of a rank-0 array.  The fill argument stands for the
validated num_array_fill (already checked to hold non-negative integers).
The closing validate_shape debug assertion is not modelled: the release
build returns the array exactly as built here. -/
def listKeep (counts : List Nat) (fill : Option (Arr Nat)) (a : Arr α) :
    Option (Arr α) :=
  if a.rowCount < counts.length then none
  else if counts.length < a.rowCount ∧ fill.isNone then none
  else
    let rc := a.rowCount
    let rowLen := a.rowLen
    let eff := counts ++
      cycleTake (match fill with | some f => f.data | none => []) (rc - counts.length)
    let sum := eff.sum
    let allBoolean := eff.all fun n => n ≤ 1
    let cnt := getCount counts fill
    let newData :=
      if allBoolean then
        (a.data.enum.filter fun p => cnt (p.1 / rowLen) = 1).map fun p => p.2
      else
        (keepGo cnt rowLen rc 0 0 0 a.data).take (sum * rowLen)
    match a.shape with
    | [] => none
    | _ :: rest => some ⟨sum :: rest, newData⟩

/-- Modelled from the spec: Array::from_row_arrays lives in
algorithm/dyadic/combine.rs, which is not among the sources.  Sections 3
and 4.3 of the spec describe stacking equal-shape rows into an array whose
leading dimension is the row count; differing row shapes are an error.
With no rows at all the result is the default array of shape [0]
(Array::default in array.rs uses shape 0). -/
def fromRowArrays (rows : List (Arr α)) : Option (Arr α) :=
  match rows with
  | [] => some ⟨[0], []⟩
  | r :: rest =>
    if rest.all fun x => x.shape == r.shape then
      some ⟨rows.length :: r.shape, (rows.map fun x => x.data).flatten⟩
    else none

/-- The reconstruction loop of Array::undo_keep: counts zipped with the
into rows; a count-0 position takes the into row, a count-1 position
consumes the next transformed row after checking its shape. -/
def undoKeepGo : List (Nat × Arr α) → List (Arr α) → List (Arr α) →
    Option (List (Arr α))
  | [], _, acc => some acc.reverse
  | (count, intoRow) :: rest, transformed, acc =>
    if count = 0 then undoKeepGo rest transformed (intoRow :: acc)
    else
      match transformed with
      | [] => none
      | t :: ts =>
        if t.shape = intoRow.shape then undoKeepGo rest ts (t :: acc)
        else none

/-- Embeds Array::undo_keep: requires boolean counts, reconstructs the rows
and stacks them with from_row_arrays. -/
def undoKeep (kept : Arr α) (counts : List Nat) (into : Arr α) : Option (Arr α) :=
  if counts.any fun n => 1 < n then none
  else
    match undoKeepGo (counts.zip into.rowsList) kept.rowsList [] with
    | some rows => fromRowArrays rows
    | none => none

/-- Filtering a flattened list of equal-length blocks by the block index of
each element keeps whole blocks. -/
theorem enumFrom_filter_blocks (p : Nat → Bool) (n : Nat) :
    ∀ (C : List (List α)) (k : Nat), (∀ c ∈ C, c.length = n) →
      ((C.flatten.enumFrom (k * n)).filter fun q => p (q.1 / n)).map Prod.snd =
      (((C.enumFrom k).filter fun q => p q.1).map Prod.snd).flatten := by
  intro C
  induction C with
  | nil => intro k _; simp
  | cons c C ih =>
    intro k hC
    have hc : c.length = n := hC c (List.mem_cons_self ..)
    rw [List.flatten_cons, List.enumFrom_append, List.filter_append, List.map_append]
    have hhead : ((c.enumFrom (k * n)).filter fun q => p (q.1 / n)).map Prod.snd =
        if p k then c else [] := by
      by_cases hcn : c = []
      · subst hcn; by_cases hp : p k <;> simp [hp]
      · have hn : n ≠ 0 := by
          intro h0
          exact hcn (List.length_eq_zero.mp (by rw [hc, h0]))
        have hcst : ∀ q ∈ c.enumFrom (k * n),
            (decide (p (q.1 / n) = true) : Bool) = decide (p k = true) := by
          intro q hq
          have h1 : k * n ≤ q.1 := List.le_fst_of_mem_enumFrom hq
          have h2 : q.1 < k * n + c.length := List.fst_lt_add_of_mem_enumFrom hq
          have hdiv : q.1 / n = k :=
            Nat.div_eq_of_lt_le (by omega)
              (by rw [Nat.succ_mul]; rw [hc] at h2; omega)
          rw [hdiv]
        have := List.filter_congr (l := c.enumFrom (k * n))
          (p := fun q => p (q.1 / n)) (q := fun q => p k) (by
            intro q hq
            simpa using hcst q hq)
        rw [this]
        by_cases hp : p k
        · simp [hp, List.enumFrom_map_snd]
        · simp [hp]
    rw [hhead, hc]
    have heq : k * n + n = (k + 1) * n := by ring
    rw [heq, ih (k + 1) fun x hx => hC x (List.mem_cons_of_mem _ hx),
      List.enumFrom_cons, List.filter_cons]
    by_cases hp : p k
    · simp [hp]
    · simp [hp]

/-- The element-index filter of the boolean keep pass, written against the
counts list zipped with the blocks. -/
theorem enumFrom_filter_getCount (cs : List Nat) :
    ∀ (C : List (List β)) (k : Nat), cs.length = k + C.length →
      ((C.enumFrom k).filter fun q => getCount cs none q.1 = 1).map Prod.snd =
      (((cs.drop k).zip C).filter fun q => q.1 = 1).map Prod.snd := by
  intro C
  induction C with
  | nil => intro k h; simp
  | cons c C ih =>
    intro k h
    have hk : k < cs.length := by
      rw [h, List.length_cons]; omega
    have hgc : getCount cs none k = cs[k] := by
      unfold getCount
      rw [if_pos hk, List.getD_eq_getElem cs 0 hk]
    rw [List.enumFrom_cons, List.drop_eq_getElem_cons hk, List.zip_cons_cons,
      List.filter_cons, List.filter_cons]
    simp only [hgc]
    have htail := ih (k + 1) (by rw [h, List.length_cons]; omega)
    by_cases h1 : cs[k] = 1
    · simp [h1, htail]
    · simp [h1, htail]

/-- With boolean counts, the number of rows kept is the sum of the counts. -/
theorem zip_filter_ones_length :
    ∀ (cs : List Nat) (C : List β), (∀ x ∈ cs, x ≤ 1) → cs.length = C.length →
      (((cs.zip C).filter fun q => q.1 = 1).map Prod.snd).length = cs.sum := by
  intro cs
  induction cs with
  | nil =>
    intro C _ h
    have : C = [] := List.length_eq_zero.mp h.symm
    subst this; simp
  | cons c cs ih =>
    intro C hb h
    cases C with
    | nil => simp at h
    | cons d C =>
      simp only [List.zip_cons_cons, List.filter_cons, List.sum_cons]
      have hc : c ≤ 1 := hb c (List.mem_cons_self ..)
      have htail := ih C (fun x hx => hb x (List.mem_cons_of_mem _ hx))
        (by simpa using h)
      by_cases h1 : c = 1
      · subst h1
        simp only [decide_True, if_true, List.map_cons, List.length_cons, htail]
        omega
      · have hc0 : c = 0 := by omega
        subst hc0
        simpa using htail

/-- The rows of an array whose data is a flattened list of row blocks are
exactly those blocks. -/
theorem rowsList_chunks (rest : List Nat) (C : List (List α))
    (hC : ∀ c ∈ C, c.length = rest.prod) :
    (Arr.mk (C.length :: rest) C.flatten).rowsList = C.map fun c => Arr.mk rest c := by
  apply List.ext_getElem
  · simp [Arr.rowsList, Arr.rowCount]
  · intro i h1 h2
    have hi : i < C.length := by simpa using h2
    simp only [Arr.rowsList, Arr.rowCount, List.headD, List.getElem_map,
      List.getElem_range]
    show Arr.row _ i = _
    unfold Arr.row
    simp only []
    congr 1
    rw [← flatten_drop rest.prod i C hC, List.drop_eq_getElem_cons hi,
      List.flatten_cons, List.take_left' (hC _ (List.getElem_mem hi))]

/-- The reconstruction loop of undo_keep merges the kept rows back into the
original row sequence when counts are boolean. -/
theorem undo_merge (rest : List Nat) :
    ∀ (cs : List Nat) (C : List (List α)) (acc : List (Arr α)),
      cs.length = C.length → (∀ x ∈ cs, x ≤ 1) →
      undoKeepGo (cs.zip (C.map fun c => Arr.mk rest c))
        (((cs.zip C).filter fun q => q.1 = 1).map fun q => Arr.mk rest q.2) acc =
      some (acc.reverse ++ C.map fun c => Arr.mk rest c) := by
  intro cs
  induction cs with
  | nil =>
    intro C acc h _
    have : C = [] := List.length_eq_zero.mp h.symm
    subst this
    simp [undoKeepGo]
  | cons c cs ih =>
    intro C acc h hb
    cases C with
    | nil => simp at h
    | cons ch C =>
      have hc : c ≤ 1 := hb c (List.mem_cons_self ..)
      have htail : cs.length = C.length := by simpa using h
      have hbtail : ∀ x ∈ cs, x ≤ 1 := fun x hx => hb x (List.mem_cons_of_mem _ hx)
      by_cases h1 : c = 1
      · subst h1
        show (if (Arr.mk rest ch).shape = (Arr.mk rest ch).shape then
            undoKeepGo (cs.zip (C.map fun c => Arr.mk rest c))
              (((cs.zip C).filter fun q => q.1 = 1).map fun q => Arr.mk rest q.2)
              (Arr.mk rest ch :: acc)
          else none) = _
        rw [if_pos rfl, ih C (Arr.mk rest ch :: acc) htail hbtail]
        simp
      · have hc0 : c = 0 := by omega
        subst hc0
        show undoKeepGo (cs.zip (C.map fun c => Arr.mk rest c))
            (((cs.zip C).filter fun q => q.1 = 1).map fun q => Arr.mk rest q.2)
            (Arr.mk rest ch :: acc) = _
        rw [ih C (Arr.mk rest ch :: acc) htail hbtail]
        simp

/-- Members of the kept selection are members of the original blocks. -/
theorem mem_of_mem_kept {cs : List Nat} {C : List (List α)} {c : List α}
    (hc : c ∈ ((cs.zip C).filter fun q => q.1 = 1).map Prod.snd) : c ∈ C := by
  rcases List.mem_map.mp hc with ⟨q, hq, hqe⟩
  have hz : q ∈ cs.zip C := List.mem_filter.mp hq |>.1
  have := List.of_mem_zip (a := q.1) (b := q.2) (by simpa using hz)
  rw [← hqe]
  exact this.2

/-- Keep followed by undo-keep, phrased over the row blocks of the array. -/
theorem keep_undo_aux (rest : List Nat) (counts : List Nat) (r : Nat)
    (C : List (List α)) (da : List α)
    (hC1 : C.length = r) (hC2 : ∀ c ∈ C, c.length = rest.prod) (hC3 : C.flatten = da)
    (hr : 1 ≤ r) (hlen : counts.length = r) (hb : ∀ x ∈ counts, x ≤ 1) :
    (listKeep counts none (Arr.mk (r :: rest) da)).bind
      (fun kept => undoKeep kept counts (Arr.mk (r :: rest) da)) =
      some (Arr.mk (r :: rest) da) := by
  have hzlen : counts.length = C.length := by omega
  set n := rest.prod with hn
  set K := ((counts.zip C).filter fun q => q.1 = 1).map Prod.snd with hKdef
  -- step A: evaluating listKeep
  have h1 : ¬((Arr.mk (r :: rest) da).rowCount < counts.length) := by
    show ¬(r < counts.length); omega
  have h2 : ¬(counts.length < (Arr.mk (r :: rest) da).rowCount ∧
      (none : Option (Arr Nat)).isNone = true) := by
    intro hx
    have : counts.length < r := hx.1
    omega
  have hcyc : cycleTake [] (r - counts.length) = [] := by
    simp [cycleTake]
  have hall : ((counts ++ cycleTake [] (r - counts.length)).all
      fun x => x ≤ 1) = true := by
    rw [hcyc, List.append_nil, List.all_eq_true]
    intro x hx
    simpa using hb x hx
  have hkeep : listKeep counts none (Arr.mk (r :: rest) da) =
      some ⟨(counts ++ cycleTake [] (r - counts.length)).sum :: rest,
        (da.enum.filter fun p =>
          getCount counts none (p.1 / n) = 1).map fun p => p.2⟩ := by
    unfold listKeep
    rw [if_neg h1, if_neg h2]
    simp only [show (Arr.mk (r :: rest) da : Arr α).rowCount = r from rfl,
      show (Arr.mk (r :: rest) da : Arr α).rowLen = n from rfl]
    rw [if_pos hall]
  -- step B: the kept data is the flattened selection of blocks
  have hK : ((da.enum.filter fun p =>
      getCount counts none (p.1 / n) = 1).map fun p => p.2) = K.flatten := by
    have hblocks := enumFrom_filter_blocks
      (fun i => decide (getCount counts none i = 1)) n C 0 hC2
    rw [Nat.zero_mul] at hblocks
    have hzip := enumFrom_filter_getCount counts C 0 (by omega)
    rw [← hC3]
    show ((C.flatten.enumFrom 0).filter fun p =>
      getCount counts none (p.1 / n) = 1).map Prod.snd = K.flatten
    simp only [hblocks, hzip, List.drop_zero]
  -- step C: counts sum
  have hsum : (counts ++ cycleTake [] (r - counts.length)).sum = counts.sum := by
    rw [hcyc, List.append_nil]
  have hKlen : K.length = counts.sum := zip_filter_ones_length counts C hb hzlen
  -- step D: row lists
  have hKmem : ∀ c ∈ K, c.length = n := fun c hc => hC2 c (mem_of_mem_kept hc)
  have hrowsKept : (Arr.mk (counts.sum :: rest) K.flatten).rowsList =
      K.map fun c => Arr.mk rest c := by
    have := rowsList_chunks rest K hKmem
    rwa [hKlen] at this
  have hrowsInto : (Arr.mk (r :: rest) da).rowsList = C.map fun c => Arr.mk rest c := by
    have := rowsList_chunks rest C hC2
    rwa [hC1, hC3] at this
  -- assemble
  rw [hkeep, Option.some_bind, hsum, hK]
  unfold undoKeep
  rw [if_neg (by
    simp only [List.any_eq_true, not_exists, not_and, decide_eq_true_eq]
    intro x hx
    have := hb x hx
    omega)]
  rw [hrowsKept, hrowsInto, hKdef, List.map_map]
  have hmerge := undo_merge rest counts C [] hzlen hb
  rw [show ((counts.zip C).filter fun q => q.1 = 1).map
      ((fun c => Arr.mk rest c) ∘ Prod.snd) =
      ((counts.zip C).filter fun q => q.1 = 1).map fun q => Arr.mk rest q.2 from rfl]
  rw [hmerge]
  show fromRowArrays (C.map fun c => Arr.mk rest c) = _
  cases C with
  | nil => simp at hC1; omega
  | cons c0 C2 =>
    show (if (C2.map fun c => Arr.mk rest c).all
          (fun x => x.shape == (Arr.mk rest c0).shape) = true then
        some ⟨((c0 :: C2).map fun c => Arr.mk rest c).length :: rest,
          (((c0 :: C2).map fun c => Arr.mk rest c).map fun x => x.data).flatten⟩
      else none) = some (Arr.mk (r :: rest) da)
    rw [if_pos (by
      simp only [List.all_eq_true]
      intro x hx
      rcases List.mem_map.mp hx with ⟨y, _, hye⟩
      rw [← hye]
      simp)]
    have e1 : ((c0 :: C2).map fun c => Arr.mk rest c).length = r := by
      rw [List.length_map]; exact hC1
    have e2 : (((c0 :: C2).map fun c => Arr.mk rest c).map fun x => x.data).flatten
        = da := by
      rw [List.map_map,
        show ((fun x : Arr α => x.data) ∘ fun c => Arr.mk rest c) = id from rfl,
        List.map_id]
      exact hC3
    rw [e1, e2]

/-- C4 counterexample: the claim quantifies over every array, but on a
rank-0 (scalar) array keep with boolean counts [1] panics in the source
(the assignment to shape[0] of an empty shape), modelled as none, so the
keep and undo-keep composite cannot reconstruct the scalar. -/
theorem C4_keep_undo_keep_counterexample :
    ((listKeep [1] none (Arr.mk ([] : List Nat) [(42 : Nat)])).bind
      fun kept => undoKeep kept [1] (Arr.mk ([] : List Nat) [(42 : Nat)])) ≠
      some (Arr.mk ([] : List Nat) [(42 : Nat)]) := by decide

/-- C4 (amended): for every array A of rank at least 1 with at least one
row, and every counts list with entries all 0 or 1 of length equal to the
row count of A, undo_keep applied to keep(counts, A), with the same counts
and A as the substitute source, reconstructs A exactly. -/
theorem C4_keep_undo_keep (a : Arr α) (counts : List Nat) (r : Nat)
    (rest : List Nat) (hv : a.valid) (hshape : a.shape = r :: rest) (hr : 1 ≤ r)
    (hlen : counts.length = r) (hb : ∀ x ∈ counts, x ≤ 1) :
    (listKeep counts none a).bind (fun kept => undoKeep kept counts a) = some a := by
  obtain ⟨sh, da⟩ := a
  have hsh : sh = r :: rest := hshape
  subst hsh
  have hd : da.length = r * rest.prod := by
    have := hv.symm
    rwa [List.prod_cons] at this
  by_cases hn : rest.prod = 0
  · have hda : da = [] := List.length_eq_zero.mp (by rw [hd, hn, Nat.mul_zero])
    refine keep_undo_aux rest counts r (List.replicate r []) da ?_ ?_ ?_ hr hlen hb
    · simp
    · intro c hc
      rw [List.eq_of_mem_replicate hc, hn]
      rfl
    · rw [hda]
      exact List.flatten_eq_nil_iff.mpr fun x hx => List.eq_of_mem_replicate hx
  · exact keep_undo_aux rest counts r (chunks rest.prod da) da
      (chunks_count _ hn r da hd) (chunks_mem_length _ hn r da hd)
      (flatten_chunks _ hn da) hr hlen hb

/-- Witness for C4 at a concrete length-3 vector with counts [1,0,1]. -/
theorem C4_keep_undo_keep_witness :
    (Arr.mk [3] [(10 : Nat), 20, 30]).valid ∧
      ((listKeep [1, 0, 1] none (Arr.mk [3] [(10 : Nat), 20, 30])).bind
        fun kept => undoKeep kept [1, 0, 1] (Arr.mk [3] [(10 : Nat), 20, 30])) =
        some (Arr.mk [3] [(10 : Nat), 20, 30]) :=
  ⟨by unfold Arr.valid; decide,
   C4_keep_undo_keep ⟨[3], [10, 20, 30]⟩ [1, 0, 1] 3 []
     (by unfold Arr.valid; decide) rfl (by decide) (by decide) (by decide)⟩

/-- C1: evaluating list_keep at the failing input.  With empty counts, a
three-row vector and the fill counts array of shape [1,2] with data [1,0],
the sum pass cycles over the flat fill data (1,0,1, so two rows) while the
get_count pass indexes the fill data modulo its row count 1 (so it keeps
every row); the produced array has shape [2] but three data elements, so
the shape invariant claimed for every produced array fails (the
validate_shape debug assertion of the source fires on this array). -/
theorem C1_keep_shape_violation :
    listKeep [] (some (Arr.mk [1, 2] [1, 0])) (Arr.mk [3] [(10 : Nat), 20, 30]) =
      some (Arr.mk [2] [(10 : Nat), 20, 30]) ∧
    ¬(Arr.mk [2] [(10 : Nat), 20, 30]).valid :=
  ⟨by decide, by unfold Arr.valid; decide⟩

/-! ### Row-major index enumeration, find, windows -/

/-- All multi-indices of the given dimension list, in row-major order (the
odometer loops of find and windows). -/
def enumIndices : List Nat → List (List Nat)
  | [] => [[]]
  | d :: ds => (List.range d).flatMap fun i => (enumIndices ds).map fun ix => i :: ix

/-- Row-major flat index: the stride accumulation of find and windows,
pairing dimensions and coordinates (and, like the source iterator zips,
ignoring unpaired entries of the longer list). -/
def flatIdx (dims ix : List Nat) : Nat :=
  (dims.zip ix).foldl (fun acc q => acc * q.1 + q.2) 0

/-- Modelled from the spec: Array::fill_to_shape is defined in
dyadic/structure.rs, which is not among the sources.  Both uses in find are
described by the spec: "the haystack is first padded on its leading axis to
admit full window coverage" and the result is "re-padded with false to the
haystack's outer shape".  The array is resized to the target shape, keeping
the original block at the origin and writing the fill value in every
vacated cell. -/
def fillToShape (a : Arr α) (target : List Nat) (fillv : α) : Arr α :=
  ⟨target, (enumIndices target).map fun ix =>
    if (ix.zip a.shape).all fun q => q.1 < q.2 then
      (a.data[flatIdx a.shape ix]?).getD fillv
    else fillv⟩

/-- The window-match test of Array::find at one corner: every offset of the
(1-padded) pattern shape must compare equal, a missing pattern element
comparing unequal.  When the pattern shape has a zero dimension the source
loop still probes the single all-zero offset before breaking, which the
singleton list models. -/
def findMatchAt (eqf : α → α → Bool) (fshT : List Nat) (pat hay : Arr α)
    (corner : List Nat) : Bool :=
  let items := if fshT.contains 0 then [List.replicate fshT.length 0]
    else enumIndices fshT
  items.all fun curr =>
    match pat.data[flatIdx fshT curr]? with
    | none => false
    | some pv =>
      match hay.data[flatIdx hay.shape (corner.zipWith (· + ·) curr)]? with
      | some hv => eqf hv pv
      | none => false

/-- The core loop of Array::find once fills are resolved: pad the pattern
shape with leading 1 dimensions, scan every corner of the clipped output
shape, then pad the boolean mask back to the haystack shape with zeros.
none models the debug panics on dimension underflow in the temporary shape
and in the corner loop, and the slice panic when the padded pattern rank
exceeds the haystack rank; they are unreachable without the fill path. -/
def findCore (eqf : α → α → Bool) (pat hay : Arr α) : Option (Arr Nat) :=
  let fsh := List.replicate (hay.rank - pat.rank) 1 ++ pat.shape
  let fshT := fsh.take hay.rank
  if (fsh.zip hay.shape).any fun q => q.2 + 1 < q.1 then none
  else if hay.shape.all (fun d => 0 < d) ∧
      ((fsh.zip hay.shape).any fun q => q.2 < q.1) then none
  else if hay.shape.length < fsh.length then none
  else
    let temp := (hay.shape.zip fsh).map fun q => q.1 + 1 - q.2
    let data :=
      if hay.shape.all fun d => 0 < d then
        (enumIndices temp).map fun corner =>
          if findMatchAt eqf fshT pat hay corner then 1 else 0
      else List.replicate temp.prod 0
    some (fillToShape (Arr.mk temp data) (hay.shape.take fsh.length) 0)

/-- Embeds Array::find: the dimension-excess cases resolve through the
scalar fill (padding the haystack, or an all-false result when no fill
exists); otherwise the core scan runs directly.  The rank-0-haystack fill
case panics in the source when writing target_shape[0]. -/
def findArr (eqf : α → α → Bool) (pat hay : Arr α) (fill : Option α) :
    Option (Arr Nat) :=
  let anyDimGreater := (pat.shape.reverse.zip hay.shape.reverse).any fun q => q.2 < q.1
  if pat.rank > hay.rank ∨ anyDimGreater then
    match fill with
    | some f =>
      match hay.shape with
      | [] => none
      | _ :: t => findCore eqf pat (fillToShape hay (pat.rowCount :: t) f)
    | none => some ⟨hay.shape, List.replicate hay.data.length 0⟩
  else findCore eqf pat hay

/-- C2 counterexample: find([1,2], [1,1,2,1,2]) does not yield the mask
[0,0,1,0] padded to [0,0,1,0,0] stated by the claim; the pattern matches at
window positions 1 and 3. -/
theorem C2_find_boundary_counterexample :
    findArr (fun a b => a == b) (Arr.mk [2] [(1 : Nat), 2])
      (Arr.mk [5] [(1 : Nat), 1, 2, 1, 2]) none ≠
      some (Arr.mk [5] [0, 0, 1, 0, 0]) := by decide

/-- C2 (amended): find of the 1-D pattern [1,2] in the 1-D haystack
[1,1,2,1,2] yields the boolean mask [0,1,0,1] over the four window starting
positions, and the returned array is that mask padded back to the haystack
length 5 with a trailing 0, i.e. [0,1,0,1,0]. -/
theorem C2_find_boundary :
    findArr (fun a b => a == b) (Arr.mk [2] [(1 : Nat), 2])
      (Arr.mk [5] [(1 : Nat), 1, 2, 1, 2]) none =
      some (Arr.mk [5] [0, 1, 0, 1, 0]) := by decide

/-- Embeds Array::windows: resolve negative window sizes against the axis
lengths, compute the output shape, return an empty array when a window is
non-positive or exceeds its axis, and otherwise copy every window corner by
corner in row-major order into a buffer seeded with the first element.
none models the user errors (zero size, too many axes) and the panic of
data[0] on an empty buffer. -/
def windowsArr (a : Arr α) (spec : List Int) : Option (Arr α) :=
  if spec.any fun s => s = 0 then none
  else if a.shape.length < spec.length then none
  else
    let sizeSpec := (a.shape.zip spec).map fun q =>
      if 0 ≤ q.2 then q.2 else (q.1 : Int) + 1 + q.2
    let newShape := ((a.shape.zip sizeSpec).map fun q =>
        (((q.1 : Int) + 1) - q.2).toNat) ++
      (sizeSpec.map fun s => s.toNat) ++ a.shape.drop sizeSpec.length
    if (sizeSpec.zip a.shape).any fun q => q.1 ≤ 0 ∨ (q.2 : Int) < q.1 then
      some ⟨newShape, []⟩
    else
      let trueSize := sizeSpec.map Int.toNat ++ a.shape.drop sizeSpec.length
      match a.data[0]? with
      | none => none
      | some d0 =>
        let dst0 := List.replicate newShape.prod d0
        let srcIdxs := (enumIndices ((a.shape.zip trueSize).map
            fun q => q.1 - q.2 + 1)).flatMap fun corner =>
          (enumIndices trueSize).map fun curr =>
            flatIdx a.shape (corner.zipWith (· + ·) curr)
        let data := (srcIdxs.foldl (fun (st : Nat × List α) srcIdx =>
          (st.1 + 1, st.2.set st.1 ((a.data[srcIdx]?).getD d0))) (0, dst0)).2
        some ⟨newShape, data⟩

/-- C6: windows on shape [10] with size 3 gives shape [8,3]; with size 11
it gives the empty array of shape [0,11]; and in general every
outer-position dimension k of the result equals max(0, dim[k] - size[k] + 1)
with size[k] the resolved window size for that axis. -/
theorem C6_windows_shape :
    ((windowsArr (Arr.mk [10] (List.range 10)) [3]).map Arr.shape =
      some [8, 3]) ∧
    (windowsArr (Arr.mk [10] (List.range 10)) [11] =
      some (Arr.mk [0, 11] [])) ∧
    ∀ (a : Arr Nat) (spec : List Int) (out : Arr Nat),
      windowsArr a spec = some out →
      ∀ (k : Nat) (hk : k < spec.length) (hsk : k < a.shape.length),
        out.shape[k]? = some (((a.shape[k] : Int) + 1 -
          (if 0 ≤ spec[k] then spec[k]
           else (a.shape[k] : Int) + 1 + spec[k])).toNat) := by
  refine ⟨by decide, by decide, ?_⟩
  intro a spec out h k hk hsk
  have hklt : k < (a.shape.zip ((a.shape.zip spec).map fun q =>
      if 0 ≤ q.2 then q.2 else (q.1 : Int) + 1 + q.2)).length := by
    rw [List.length_zip, List.length_map, List.length_zip]; omega
  have hmain : ∀ (d : List Nat),
      out = Arr.mk (((a.shape.zip ((a.shape.zip spec).map fun q =>
          if 0 ≤ q.2 then q.2 else (q.1 : Int) + 1 + q.2)).map fun q =>
            (((q.1 : Int) + 1) - q.2).toNat) ++
          (((a.shape.zip spec).map fun q =>
            if 0 ≤ q.2 then q.2 else (q.1 : Int) + 1 + q.2).map fun s => s.toNat) ++
          a.shape.drop ((a.shape.zip spec).map fun q =>
            if 0 ≤ q.2 then q.2 else (q.1 : Int) + 1 + q.2).length) d →
      out.shape[k]? = some (((a.shape[k] : Int) + 1 -
        (if 0 ≤ spec[k] then spec[k]
         else (a.shape[k] : Int) + 1 + spec[k])).toNat) := by
    intro d hout
    rw [hout]
    show (_ ++ _ ++ _)[k]? = _
    rw [List.getElem?_append_left (by rw [List.length_append, List.length_map]; omega),
      List.getElem?_append_left (by rw [List.length_map]; exact hklt),
      List.getElem?_eq_getElem (by rw [List.length_map]; exact hklt)]
    simp only [List.getElem_map, List.getElem_zip]
  simp only [windowsArr] at h
  split at h
  · exact absurd h (by simp)
  split at h
  · exact absurd h (by simp)
  split at h
  · exact hmain [] (Option.some.inj h).symm
  · split at h
    · exact absurd h (by simp)
    · exact hmain _ (Option.some.inj h).symm

/-- Witness for C6: the general outer-dimension formula applied to the
shape-[10] array with window size 3. -/
theorem C6_windows_shape_witness :
    (Arr.mk [8, 3] [0, 1, 2, 1, 2, 3, 2, 3, 4, 3, 4, 5, 4, 5, 6, 5, 6, 7,
      6, 7, 8, 7, 8, 9] : Arr Nat).shape[0]? = some 8 :=
  (C6_windows_shape.2.2 (Arr.mk [10] (List.range 10)) [3]
    (Arr.mk [8, 3] [0, 1, 2, 1, 2, 3, 2, 3, 4, 3, 4, 5, 4, 5, 6, 5, 6, 7,
      6, 7, 8, 7, 8, 9])
    (by decide) 0 (by decide) (by decide)).trans (by decide)

/-! ### member and index_of (equal-rank core) -/

/-- Modelled from the spec: the hash-set row lookup of member and index_of
goes through ArrayCmpSlice (algorithm/mod.rs, outside the sources), which
the spec describes as content-based equality of rows including wildcard
semantics; it is modelled as elementwise comparison of equal-length
slices under the element comparison. -/
def sliceEq (eqf : α → α → Bool) (r s : List α) : Bool :=
  r.length == s.length && (r.zip s).all fun q => eqf q.1 q.2

/-- Embeds the equal-rank branch of Array::member: collect the haystack
rows and probe each needle row, producing a boolean-flagged list with the
needle leading dimension. -/
def memberSameRank (eqf : α → α → Bool) (needle hay : Arr α) : Arr Nat :=
  ⟨needle.shape.take 1,
    needle.rowSlices.map fun elemRow =>
      if hay.rowSlices.any fun ofRow => sliceEq eqf ofRow elemRow then 1 else 0⟩

/-- Embeds the equal-rank branch of Array::index_of: for each needle row
the first matching haystack row index, defaulting to the haystack row
count (the source stores these indices as f64; the naturals are the same
values). -/
def indexOfSameRank (eqf : α → α → Bool) (needle hay : Arr α) : Arr Nat :=
  ⟨needle.shape.take 1,
    needle.rowSlices.map fun elemRow =>
      hay.rowSlices.findIdx fun ofRow => sliceEq eqf ofRow elemRow⟩

theorem rowSlices_length (a : Arr α) : a.rowSlices.length = a.rowCount := by
  simp [Arr.rowSlices]

/-- C7: for arrays of equal rank, row r of member is 1 exactly when row r
of index_of differs from the haystack row count. -/
theorem C7_member_indexOf_agree (eqf : α → α → Bool) (needle hay : Arr α)
    (hrank : needle.rank = hay.rank) (r : Nat) (hr : r < needle.rowCount) :
    ((memberSameRank eqf needle hay).data[r]? = some 1) ↔
      (indexOfSameRank eqf needle hay).data[r]? ≠ some hay.rowCount := by
  have hlen : needle.rowSlices.length = needle.rowCount := rowSlices_length needle
  have hr2 : r < needle.rowSlices.length := by omega
  have h1 : (memberSameRank eqf needle hay).data[r]? =
      some (if hay.rowSlices.any fun ofRow =>
        sliceEq eqf ofRow needle.rowSlices[r] then 1 else 0) := by
    show (needle.rowSlices.map _)[r]? = _
    rw [List.getElem?_eq_getElem (by rw [List.length_map]; omega), List.getElem_map]
  have h2 : (indexOfSameRank eqf needle hay).data[r]? =
      some (hay.rowSlices.findIdx fun ofRow =>
        sliceEq eqf ofRow needle.rowSlices[r]) := by
    show (needle.rowSlices.map _)[r]? = _
    rw [List.getElem?_eq_getElem (by rw [List.length_map]; omega), List.getElem_map]
  rw [h1, h2]
  have hhay : hay.rowSlices.length = hay.rowCount := rowSlices_length hay
  by_cases hany : (hay.rowSlices.any fun ofRow =>
      sliceEq eqf ofRow needle.rowSlices[r]) = true
  · have hlt : (hay.rowSlices.findIdx fun ofRow =>
        sliceEq eqf ofRow needle.rowSlices[r]) < hay.rowSlices.length :=
      List.findIdx_lt_length_of_exists (by simpa [List.any_eq_true] using hany)
    have hne : (hay.rowSlices.findIdx fun ofRow =>
        sliceEq eqf ofRow needle.rowSlices[r]) ≠ hay.rowCount := by omega
    simp [hany, hne]
  · have hnotlt : ¬((hay.rowSlices.findIdx fun ofRow =>
        sliceEq eqf ofRow needle.rowSlices[r]) < hay.rowSlices.length) := by
      intro hlt
      exact hany (List.any_eq_true.mpr
        ⟨_, List.getElem_mem hlt, by simpa using List.findIdx_getElem (w := hlt)⟩)
    have hle : (hay.rowSlices.findIdx fun ofRow =>
        sliceEq eqf ofRow needle.rowSlices[r]) ≤ hay.rowSlices.length :=
      List.findIdx_le_length _
    have heq : (hay.rowSlices.findIdx fun ofRow =>
        sliceEq eqf ofRow needle.rowSlices[r]) = hay.rowCount := by omega
    simp [hany, heq]

/-- Witness for C7 with a 2-row needle against a 3-row haystack. -/
theorem C7_member_indexOf_agree_witness :
    ((memberSameRank (fun a b => a == b) (Arr.mk [2, 2] [(1 : Nat), 2, 3, 4])
        (Arr.mk [3, 2] [(3 : Nat), 4, 9, 9, 1, 2])).data[0]? = some 1) ∧
      (indexOfSameRank (fun a b => a == b) (Arr.mk [2, 2] [(1 : Nat), 2, 3, 4])
        (Arr.mk [3, 2] [(3 : Nat), 4, 9, 9, 1, 2])).data[0]? ≠
        some (Arr.mk [3, 2] [(3 : Nat), 4, 9, 9, 1, 2]).rowCount :=
  ⟨by decide,
   (C7_member_indexOf_agree (fun a b => a == b) ⟨[2, 2], [1, 2, 3, 4]⟩
     ⟨[3, 2], [3, 4, 9, 9, 1, 2]⟩ (by decide) 0 (by decide)).mp (by decide)⟩

/-! ### derive_shape and the f32 arithmetic of the inferred dimension -/

/-- The binary exponent of the positive rational a / b, both at least 1
and below 2 ^ 80: the largest e with 2 ^ e ≤ a / b, scanned over the
exponent range that derive_shape can meet. -/
def f32exp (a b : Nat) : Int :=
  (((List.range 161).foldl
    (fun acc j => if b * 2 ^ j ≤ a * 2 ^ 80 then j else acc) 0 : Nat) : Int) - 80

/-- IEEE 754 binary32 rounding (round to nearest, ties to even) of the
positive rational a / b, as a mantissa and exponent pair: the value is
m * 2 ^ (e - 23) with 2 ^ 23 ≤ m ≤ 2 ^ 24.  Every quantity derive_shape
rounds is zero or a normal f32 with exponent inside the scanned range (the
operands are machine integers below 2 ^ 64), so subnormal and overflow
handling is not modelled. -/
def roundF32 (a b : Nat) : Nat × Int :=
  let e := f32exp a b
  let num := a * 2 ^ ((23 : Int) - e).toNat
  let den := b * 2 ^ (e - 23).toNat
  let f := num / den
  let rem := num % den
  let m := if 2 * rem < den then f
    else if den < 2 * rem then f + 1
    else if f % 2 = 0 then f else f + 1
  (m, e)

/-- The saturating f32-to-isize cast, for the non-negative values produced
by derive_len. -/
def satIsize (x : Int) : Int := min x (2 ^ 63 - 1)

/-- Embeds the derive_len closure of derive_shape: both lengths convert to
f32, the f32 quotient is formed (IEEE division rounds the exact quotient),
and f32 ceil or floor (exact on f32 values) is cast to isize.  A zero
data length gives 0.0 and rounds to 0; a zero other length is unreachable
(the callers error on zero products first). -/
def deriveLen (dataLen otherLen : Nat) (hasFill : Bool) : Int :=
  if dataLen = 0 ∨ otherLen = 0 then 0
  else
    let x := roundF32 dataLen 1
    let y := roundF32 otherLen 1
    let q := roundF32 (x.1 * 2 ^ (x.2 - y.2).toNat) (y.1 * 2 ^ (y.2 - x.2).toNat)
    let v : Nat :=
      if q.2 < 23 then
        let d := 2 ^ ((23 : Int) - q.2).toNat
        if hasFill then (q.1 + d - 1) / d else q.1 / d
      else q.1 * 2 ^ (q.2 - 23).toNat
    satIsize v

/-- A reshape dimension spec (Result of the source): dim n is a literal
signed dimension, inf rev an inferred entry carrying its reversal flag. -/
inductive RDim where
  | dim (n : Int)
  | inf (rev : Bool)
deriving Repr, DecidableEq

/-- Whether the entry is inferred (Err in the source). -/
def RDim.isInf : RDim → Bool
  | .dim _ => false
  | .inf _ => true

@[simp] theorem isInf_dim (n : Int) : (RDim.dim n).isInf = false := rfl

@[simp] theorem isInf_inf (b : Bool) : (RDim.inf b).isInf = true := rfl

/-- The literal values of a dim list in order (the flatten calls of the
source iterate the Ok entries). -/
def flattenDims (dims : List RDim) : List Int :=
  dims.filterMap fun d => match d with | .dim n => some n | .inf _ => none

/-- The usize cast of an isize value (negative values wrap modulo 2^64),
as applied to the non-leading product in the leading-inferred branch. -/
def usizeOf (p : Int) : Nat := (p % (2 ^ 64 : Int)).toNat

/-- The leading-inferred branch of derive_shape (dims[0] is Err): the
non-leading product goes through the isize-to-usize cast without taking
the magnitude first. -/
def deriveLeading (shape : List Nat) (rev : Bool) (drest : List RDim)
    (hasFill : Bool) : Option (List Int) :=
  let revMul : Int := if rev then -1 else 1
  if drest.any fun d => d.isInf then none
  else
    let shapeNonLeadingLen := usizeOf (flattenDims drest).prod
    if shapeNonLeadingLen = 0 then none
    else some ((revMul * deriveLen shape.prod shapeNonLeadingLen hasFill)
      :: flattenDims drest)

/-- The trailing-inferred branch of derive_shape (the last dim is Err). -/
def deriveTrailing (shape : List Nat) (dims : List RDim) (rev : Bool)
    (hasFill : Bool) : Option (List Int) :=
  let revMul : Int := if rev then -1 else 1
  if dims.dropLast.any fun d => d.isInf then none
  else
    let axes := flattenDims dims
    if axes.prod.natAbs = 0 then none
    else some (axes ++ [revMul * deriveLen shape.prod axes.prod.natAbs hasFill])

/-- The middle-inferred branch of derive_shape: split at the first Err. -/
def deriveMiddle (shape : List Nat) (dims : List RDim) (hasFill : Bool) :
    Option (List Int) :=
  let infIndex := dims.findIdx fun d => d.isInf
  let front := dims.take infIndex
  let back := dims.drop (infIndex + 1)
  let rev := match dims[infIndex]? with
    | some (.inf rv) => rv
    | _ => false
  let revMul : Int := if rev then -1 else 1
  let frontLen := (flattenDims front).prod.natAbs
  let backLen := (flattenDims back).prod.natAbs
  if frontLen = 0 ∨ backLen = 0 then none
  else some (flattenDims front ++
    (revMul * deriveLen shape.prod (frontLen * backLen) hasFill)
    :: flattenDims back)

/-- Embeds fn derive_shape of dyadic/mod.rs, dispatching on the position
of the inferred entry.  none models the user errors (several inferred
dimensions, zero products).  The signed products are exact here, where
the source computes them in isize and would overflow-panic beyond 2 ^ 63;
no theorem below reaches that range. -/
def deriveShape (shape : List Nat) (dims : List RDim) (hasFill : Bool) :
    Option (List Int) :=
  let infCount := (dims.filter fun d => d.isInf).length
  if infCount = 0 then
    some (dims.map fun d => match d with | .dim n => n | .inf _ => 0)
  else if infCount = 1 then
    match dims with
    | [] => none
    | d0 :: _ =>
      match d0 with
      | .inf rev => deriveLeading shape rev dims.tail hasFill
      | .dim _ =>
        match dims.getLast? with
        | some (.inf rev) => deriveTrailing shape dims rev hasFill
        | _ => deriveMiddle shape dims hasFill
  else none

@[simp] theorem flattenDims_nil : flattenDims [] = [] := rfl

@[simp] theorem flattenDims_cons_dim (n : Int) (l : List RDim) :
    flattenDims (RDim.dim n :: l) = n :: flattenDims l := rfl

@[simp] theorem flattenDims_cons_inf (b : Bool) (l : List RDim) :
    flattenDims (RDim.inf b :: l) = flattenDims l := rfl

theorem flattenDims_append (l m : List RDim) :
    flattenDims (l ++ m) = flattenDims l ++ flattenDims m := by
  simp [flattenDims, List.filterMap_append]

@[simp] theorem flattenDims_map_dim (l : List Int) :
    flattenDims (l.map RDim.dim) = l := by
  induction l with
  | nil => rfl
  | cons x l ih => simp [ih]

@[simp] theorem filter_isInf_map_dim (l : List Int) :
    ((l.map RDim.dim).filter fun d => d.isInf) = [] := by
  induction l with
  | nil => rfl
  | cons x l ih => simp [ih]

@[simp] theorem any_isInf_map_dim (l : List Int) :
    ((l.map RDim.dim).any fun d => d.isInf) = false := by
  induction l with
  | nil => rfl
  | cons x l ih => simp [ih]

theorem findIdx_isInf_split (front : List Int) (rest : List RDim) (b : Bool) :
    ((front.map RDim.dim ++ RDim.inf b :: rest).findIdx fun d => d.isInf) =
      front.length := by
  induction front with
  | nil => simp [List.findIdx_cons]
  | cons x front ih => simp [List.findIdx_cons, ih]

set_option maxRecDepth 100000 in
/-- C5 counterexample: reshaping a 16777217-element array to a single
inferred dimension without a fill gives magnitude 16777216, not
floor(16777217 / 1) = 16777217: the quotient is computed in f32, which
cannot represent 2^24 + 1. -/
theorem C5_inferred_dim_counterexample :
    deriveShape [16777217] [RDim.inf false] false = some [16777216] ∧
      ¬(16777216 : Nat) = 16777217 / 1 := by
  constructor
  · decide
  · decide

theorem deriveShape_cons_inf (shape : List Nat) (rev : Bool) (rest : List RDim)
    (hasFill : Bool)
    (hc : (((RDim.inf rev :: rest).filter fun d => d.isInf).length) = 1) :
    deriveShape shape (RDim.inf rev :: rest) hasFill =
      deriveLeading shape rev rest hasFill := by
  simp only [deriveShape, hc]
  norm_num

theorem deriveShape_last_inf (shape : List Nat) (n : Int) (rest : List RDim)
    (rev : Bool) (hasFill : Bool)
    (hc : (((RDim.dim n :: rest).filter fun d => d.isInf).length) = 1)
    (hlast : (RDim.dim n :: rest).getLast? = some (RDim.inf rev)) :
    deriveShape shape (RDim.dim n :: rest) hasFill =
      deriveTrailing shape (RDim.dim n :: rest) rev hasFill := by
  simp only [deriveShape, hc, hlast]
  norm_num

theorem deriveShape_last_dim (shape : List Nat) (n : Int) (rest : List RDim)
    (y : Int) (hasFill : Bool)
    (hc : (((RDim.dim n :: rest).filter fun d => d.isInf).length) = 1)
    (hlast : (RDim.dim n :: rest).getLast? = some (RDim.dim y)) :
    deriveShape shape (RDim.dim n :: rest) hasFill =
      deriveMiddle shape (RDim.dim n :: rest) hasFill := by
  simp only [deriveShape, hc, hlast]
  norm_num

theorem deriveLeading_eval (shape : List Nat) (rev : Bool) (back : List Int)
    (hasFill : Bool) (hbn : 0 ≤ back.prod) (hbp : back.prod ≠ 0)
    (hlt : back.prod < 2 ^ 64) :
    deriveLeading shape rev (back.map RDim.dim) hasFill =
      some (((if rev then -1 else 1) *
        deriveLen shape.prod back.prod.natAbs hasFill) :: back) := by
  simp only [deriveLeading]
  rw [if_neg (by simp)]
  have hu : usizeOf (flattenDims (back.map RDim.dim)).prod = back.prod.natAbs := by
    rw [flattenDims_map_dim]
    unfold usizeOf
    rw [Int.emod_eq_of_lt hbn hlt]
    omega
  rw [hu, if_neg (by omega), flattenDims_map_dim]

theorem deriveTrailing_eval (shape : List Nat) (front : List Int) (rev : Bool)
    (hasFill : Bool) (hfp : front.prod ≠ 0) :
    deriveTrailing shape (front.map RDim.dim ++ [RDim.inf rev]) rev hasFill =
      some (front ++ [(if rev then -1 else 1) *
        deriveLen shape.prod front.prod.natAbs hasFill]) := by
  simp only [deriveTrailing]
  rw [List.dropLast_concat, if_neg (by simp), flattenDims_append]
  simp only [flattenDims_map_dim, flattenDims_cons_inf, flattenDims_nil,
    List.append_nil]
  rw [if_neg (by omega)]

theorem deriveMiddle_eval (shape : List Nat) (front : List Int) (b0 : Int)
    (br : List Int) (rev : Bool) (hasFill : Bool)
    (hfp : front.prod ≠ 0) (hbp : (b0 :: br).prod ≠ 0) :
    deriveMiddle shape
      (front.map RDim.dim ++ RDim.inf rev :: (b0 :: br).map RDim.dim) hasFill =
      some (front ++ ((if rev then -1 else 1) *
        deriveLen shape.prod (front.prod.natAbs * (b0 :: br).prod.natAbs) hasFill)
        :: (b0 :: br)) := by
  simp only [deriveMiddle]
  rw [findIdx_isInf_split]
  have ht : (front.map RDim.dim ++
      RDim.inf rev :: (b0 :: br).map RDim.dim).take front.length =
      front.map RDim.dim := List.take_left' (List.length_map ..)
  have hd : (front.map RDim.dim ++
      RDim.inf rev :: (b0 :: br).map RDim.dim).drop (front.length + 1) =
      (b0 :: br).map RDim.dim := by
    rw [List.drop_append_eq_append_drop,
      List.drop_of_length_le (by rw [List.length_map]; omega), List.length_map]
    simp
  have hg : (front.map RDim.dim ++
      RDim.inf rev :: (b0 :: br).map RDim.dim)[front.length]? =
      some (RDim.inf rev) := by
    rw [List.getElem?_append_right (by rw [List.length_map])]
    simp
  rw [ht, hd, hg]
  simp only [flattenDims_map_dim]
  rw [if_neg (by
    simp only [not_or]
    constructor <;> omega)]

/-- C5 (amended): with exactly one inferred entry (at any position, the
other dimensions literal and non-negative with non-zero products within
the machine range), the inferred axis value is the reversal sign times
derive_len, i.e. the isize cast of the f32 ceil (fill available) or f32
floor (no fill) of the f32 quotient of the total element count by the
product of the other dimensions — exact ceiling or floor only as far as
the f32 arithmetic is exact. -/
theorem C5_inferred_dim (shape : List Nat) (front back : List Int)
    (rev hasFill : Bool)
    (hf : ∀ x ∈ front, 0 ≤ x) (hbk : ∀ x ∈ back, 0 ≤ x)
    (hfp : front.prod ≠ 0) (hbp : back.prod ≠ 0)
    (hsz : front.prod * back.prod < 2 ^ 63) :
    deriveShape shape (front.map RDim.dim ++ RDim.inf rev :: back.map RDim.dim)
      hasFill =
    some (front ++ ((if rev then -1 else 1) *
      deriveLen shape.prod (front.prod * back.prod).natAbs hasFill) :: back) := by
  have hfn : 0 ≤ front.prod := List.prod_nonneg hf
  have hbn : 0 ≤ back.prod := List.prod_nonneg hbk
  have hf1 : 1 ≤ front.prod := by omega
  have hb1 : 1 ≤ back.prod := by omega
  have hblt : back.prod < 2 ^ 64 := by nlinarith
  cases front with
  | nil =>
    simp only [List.map_nil, List.nil_append, List.prod_nil, one_mul]
    rw [deriveShape_cons_inf shape rev (back.map RDim.dim) hasFill
      (by simp [List.filter_cons]),
      deriveLeading_eval shape rev back hasFill hbn hbp
        (by simpa using hblt)]
  | cons f0 fr =>
    cases back with
    | nil =>
      simp only [List.map_nil, List.prod_nil, mul_one, List.map_cons,
        List.cons_append]
      rw [deriveShape_last_inf shape f0 (fr.map RDim.dim ++ [RDim.inf rev]) rev
        hasFill (by simp [List.filter_cons, List.filter_append])
        (by rw [← List.cons_append, ← List.map_cons, List.getLast?_concat]),
        ← List.cons_append, ← List.map_cons,
        deriveTrailing_eval shape (f0 :: fr) rev hasFill hfp]
      simp
    | cons b0 br =>
      obtain ⟨y, hy⟩ : ∃ y, ((b0 :: br).map RDim.dim).getLast? =
          some (RDim.dim y) := by
        have h1 : ((b0 :: br) : List Int).getLast?.isSome := by
          rw [List.getLast?_isSome]
          simp
        rcases Option.isSome_iff_exists.mp h1 with ⟨z, hz⟩
        exact ⟨z, by rw [List.getLast?_map, hz]; rfl⟩
      have hlast : (RDim.dim f0 :: (fr.map RDim.dim ++
          RDim.inf rev :: (b0 :: br).map RDim.dim)).getLast? =
          some (RDim.dim y) := by
        rw [← List.cons_append,
          List.getLast?_append_of_ne_nil _ (by simp :
            (RDim.inf rev :: (b0 :: br).map RDim.dim) ≠ []),
          ← List.singleton_append,
          List.getLast?_append_of_ne_nil _ (by simp :
            ((b0 :: br).map RDim.dim) ≠ [])]
        exact hy
      show deriveShape shape (RDim.dim f0 :: (fr.map RDim.dim ++
          RDim.inf rev :: (b0 :: br).map RDim.dim)) hasFill =
        some ((f0 :: fr) ++ ((if rev then -1 else 1) *
          deriveLen shape.prod ((f0 :: fr).prod * (b0 :: br).prod).natAbs hasFill)
          :: (b0 :: br))
      rw [deriveShape_last_dim shape f0
        (fr.map RDim.dim ++ RDim.inf rev :: (b0 :: br).map RDim.dim) y hasFill
        (by simp [List.filter_cons, List.filter_append]) hlast]
      show deriveMiddle shape ((f0 :: fr).map RDim.dim ++
        RDim.inf rev :: (b0 :: br).map RDim.dim) hasFill = _
      rw [deriveMiddle_eval shape (f0 :: fr) b0 br rev hasFill hfp hbp,
        ← Int.natAbs_mul]

set_option maxRecDepth 100000 in
/-- Witness for C5 at shape [10] with dims [3, inferred] and a fill
available: the inferred axis is ceil(10 / 3) = 4. -/
theorem C5_inferred_dim_witness :
    deriveShape [10] [RDim.dim 3, RDim.inf false] true = some [3, 4] :=
  (C5_inferred_dim [10] [3] [] false true (by decide) (by decide) (by decide)
    (by decide) (by decide)).trans (by decide)

/-- Modelled from the spec: shape-prefix compatibility of the combination
rule (one operand row shape must be a prefix of the other); the source
helper shape_prefixes_match lives in a module not present under src. -/
def shapePrefixesMatch : List Nat → List Nat → Bool
  | [], _ => true
  | _ :: _, [] => true
  | x :: xs, y :: ys => x == y && shapePrefixesMatch xs ys

/-- Modelled from the spec: prefix-broadcast elementwise multiplication
(bin_pervade_recursive with the numeric multiply, from a module not
present under src): the shapes agree on a prefix and the shallower
operand is extended by replication over the extra trailing axes, so the
flat output index k reads the shallower operand at k divided by the
product of those axes. -/
def binPervadeMul [Mul α] [Zero α] (ash : List Nat) (ad : List α)
    (bsh : List Nat) (bd : List α) : List α :=
  if bsh.length ≤ ash.length then
    (List.range ash.prod).map fun k =>
      ad.getD k 0 * bd.getD (k / (ash.drop bsh.length).prod) 0
  else
    (List.range bsh.prod).map fun k =>
      ad.getD (k / (bsh.drop ash.length).prod) 0 * bd.getD k 0

/-- Full chunks only, as slice::chunks_exact; the caller must rule out a
zero chunk size (chunks_exact panics on it). -/
def chunksExact (n : Nat) (l : List α) : List (List α) :=
  (chunks n l).filter fun c => c.length = n

/-- The per-pair reduction of Array::matrix_mul: split the broadcast
product buffer at prod_elems and accumulate the remaining exact chunks
into the leading segment.  none models the panics of split_at_mut (index
beyond the buffer) and of chunks_exact with chunk size 0. -/
def sumChunksExact [Add α] (n : Nat) (l : List α) : Option (List α) :=
  if n = 0 then none
  else if l.length < n then none
  else some ((chunksExact n (l.drop n)).foldl
    (fun s c => (s.zip c).map fun p => p.1 + p.2) (l.take n))

/-- The loop of the inner closure of Array::matrix_mul: one (index, right
row) pair per step, broadcast-multiply with the fixed left row, reduce,
and write the sum at the running offset of the result row.  none models a
panic of the reduction or an out-of-range slice write. -/
def innerGo [Mul α] [Add α] [Zero α] (ash : List Nat) (aRow : List α)
    (bsh : List Nat) (pe cs : Nat) :
    List (Nat × List α) → List α → Option (List α)
  | [], buf => some buf
  | p :: rest, buf =>
    (sumChunksExact pe (binPervadeMul ash aRow bsh p.2)).bind fun s =>
      if p.1 * pe + pe ≤ cs then
        innerGo ash aRow bsh pe cs rest (setSeg buf (p.1 * pe) s)
      else none

/-- The inner closure of Array::matrix_mul for one left row: the result
row starts as the zero slice handed out by chunks_exact_mut and every
right row writes its reduced product segment. -/
def innerRow [Mul α] [Add α] [Zero α] (ash : List Nat) (aRow : List α)
    (bsh : List Nat) (b : Arr α) (pe cs : Nat) : Option (List α) :=
  innerGo ash aRow bsh pe cs b.rowSlices.enum (List.replicate cs 0)

/-- The broadcast product shape of Array::matrix_mul: the longer of the
two operand row shapes (the left one on ties). -/
def mmProdShape (a b : Arr α) : List Nat :=
  if b.shape.tail.length ≤ a.shape.tail.length then a.shape.tail
  else b.shape.tail

/-- prod_elems of Array::matrix_mul: element count of the row shape of
the broadcast product shape. -/
def mmProdElems (a b : Arr α) : Nat := (mmProdShape a b).tail.prod

/-- The result chunk handed to each left row by chunks_exact_mut. -/
def mmChunk (a b : Arr α) : Nat := b.rowCount * mmProdElems a b

/-- The length of the zero-initialised result buffer of matrix_mul. -/
def mmResLen (a b : Arr α) : Nat :=
  a.rowCount * b.rowCount * mmProdElems a b

/-- Whether the row-pair closure for left row r finishes without a
panic. -/
def mmOk [Mul α] [Add α] [Zero α] (a b : Arr α) (r : Nat) : Bool :=
  (innerRow a.shape.tail (a.rowSliceData r) b.shape.tail b
    (mmProdElems a b) (mmChunk a b)).isSome

/-- The result-row segment the closure for left row r writes. -/
def mmSeg [Mul α] [Add α] [Zero α] (a b : Arr α) (r : Nat) : List α :=
  (innerRow a.shape.tail (a.rowSliceData r) b.shape.tail b
    (mmProdElems a b) (mmChunk a b)).getD
    (List.replicate (mmChunk a b) 0)

/-- How many (left row, result chunk) pairs the zip of Array::matrix_mul
yields: the row slices of the left operand against the exact chunks of
the result buffer. -/
def mmPairCount (a b : Arr α) : Nat :=
  if mmChunk a b = 0 then 0
  else min a.rowCount (mmResLen a b / mmChunk a b)

/-- Array::matrix_mul with an explicit execution order of the row pairs:
the sequential path processes them in index order, the parallel path
(either operand over 100 rows) in an unspecified interleaving that still
executes every pair once and writes each disjoint result chunk.  none
models the shape-mismatch error, the chunks_exact_mut panic on chunk
size 0, and a panic inside any executed closure. -/
def matrixMulWith [Mul α] [Add α] [Zero α] (order : List Nat)
    (a b : Arr α) : Option (Arr α) :=
  if shapePrefixesMatch a.shape.tail b.shape.tail then
    if mmChunk a b = 0 then none
    else if order.all (mmOk a b) then
      some ⟨a.rowCount :: b.rowCount :: (mmProdShape a b).tail,
        order.foldl
          (fun buf r => setSeg buf (r * mmChunk a b) (mmSeg a b r))
          (List.replicate (mmResLen a b) 0)⟩
    else none
  else none

/-- Array::matrix_mul along its sequential path. -/
def matrix_mul [Mul α] [Add α] [Zero α] (a b : Arr α) : Option (Arr α) :=
  matrixMulWith (List.range (mmPairCount a b)) a b

/-- Witness for C3 at a concrete rank-2 array and offset vector. -/
theorem C3_rotate_roundtrip_witness :
    (Arr.mk [2, 3] [1, 2, 3, 4, 5, 6] : Arr Nat).valid ∧
      (rotateArr ⟨[2], [1, -2]⟩ none (Arr.mk [2, 3] [1, 2, 3, 4, 5, 6] : Arr Nat)).bind
        (rotateArr (negArr ⟨[2], [1, -2]⟩) none) =
      some (Arr.mk [2, 3] [1, 2, 3, 4, 5, 6]) :=
  ⟨by unfold Arr.valid; decide, C3_rotate_roundtrip ⟨[2], [1, -2]⟩
    ⟨[2, 3], [1, 2, 3, 4, 5, 6]⟩ (by unfold Arr.valid; decide) (by decide) (by decide)⟩


theorem setSeg_length_of_le (d seg : List α) (pos : Nat)
    (h : pos + seg.length ≤ d.length) :
    (setSeg d pos seg).length = d.length := by
  simp [setSeg]
  omega

theorem setSeg_getElem (d seg : List α) (pos n : Nat)
    (hle : pos + seg.length ≤ d.length) :
    (setSeg d pos seg)[n]? =
      if n < pos then d[n]?
      else if n < pos + seg.length then seg[n - pos]? else d[n]? := by
  unfold setSeg
  by_cases h1 : n < pos
  · rw [if_pos h1,
      List.getElem?_append_left (by
        rw [List.length_append, List.length_take]; omega),
      List.getElem?_append_left (by rw [List.length_take]; omega),
      List.getElem?_take, if_pos h1]
  · rw [if_neg h1]
    by_cases h2 : n < pos + seg.length
    · rw [if_pos h2,
        List.getElem?_append_left (by
          rw [List.length_append, List.length_take]; omega),
        List.getElem?_append_right (by rw [List.length_take]; omega),
        List.length_take, Nat.min_eq_left (by omega : pos ≤ d.length)]
    · rw [if_neg h2,
        List.getElem?_append_right (by
          rw [List.length_append, List.length_take]; omega),
        List.getElem?_drop]
      congr 1
      rw [List.length_append, List.length_take]
      omega

theorem setSeg_comm (d s t : List α) (i j : Nat)
    (hij : i + s.length ≤ j) (hj : j + t.length ≤ d.length) :
    setSeg (setSeg d i s) j t = setSeg (setSeg d j t) i s := by
  have hi : i + s.length ≤ d.length := by omega
  have hA : (setSeg d i s).length = d.length := setSeg_length_of_le d s i hi
  have hB : (setSeg d j t).length = d.length := setSeg_length_of_le d t j hj
  apply List.ext_getElem?
  intro n
  rw [setSeg_getElem (setSeg d i s) t j n (by rw [hA]; omega),
    setSeg_getElem d s i n hi,
    setSeg_getElem (setSeg d j t) s i n (by rw [hB]; omega),
    setSeg_getElem d t j n hj]
  split_ifs <;> first | rfl | omega


theorem chunksExact_mem_length (n : Nat) (l c : List α)
    (h : c ∈ chunksExact n l) : c.length = n := by
  unfold chunksExact at h
  exact of_decide_eq_true (List.mem_filter.mp h).2

theorem foldl_zipadd_length [Add α] (cs : List (List α)) (n : Nat) :
    ∀ init : List α, init.length = n → (∀ c ∈ cs, c.length = n) →
      (cs.foldl (fun s c => (s.zip c).map fun p => p.1 + p.2) init).length
        = n := by
  induction cs with
  | nil =>
    intro init h _
    simpa using h
  | cons c cs2 ih =>
    intro init h hall
    rw [List.foldl_cons]
    refine ih _ ?_ fun c2 hc2 => hall c2 (List.mem_cons_of_mem c hc2)
    rw [List.length_map, List.length_zip, h,
      hall c (List.mem_cons_self c cs2), Nat.min_self]

theorem sumChunksExact_length [Add α] (n : Nat) (l s : List α)
    (h : sumChunksExact n l = some s) : s.length = n := by
  unfold sumChunksExact at h
  by_cases h0 : n = 0
  · rw [if_pos h0] at h
    exact absurd h (by simp)
  · rw [if_neg h0] at h
    by_cases h1 : l.length < n
    · rw [if_pos h1] at h
      exact absurd h (by simp)
    · rw [if_neg h1] at h
      rw [← Option.some.inj h]
      exact foldl_zipadd_length _ n _ (by rw [List.length_take]; omega)
        fun c hc => chunksExact_mem_length n _ c hc

theorem innerGo_length [Mul α] [Add α] [Zero α] (ash : List Nat)
    (aRow : List α) (bsh : List Nat) (pe cs : Nat) :
    ∀ (rows : List (Nat × List α)) (buf out : List α), buf.length = cs →
      innerGo ash aRow bsh pe cs rows buf = some out → out.length = cs := by
  intro rows
  induction rows with
  | nil =>
    intro buf out hb h
    simp only [innerGo] at h
    rw [← Option.some.inj h]
    exact hb
  | cons p rest ih =>
    intro buf out hb h
    simp only [innerGo] at h
    cases hsc : sumChunksExact pe (binPervadeMul ash aRow bsh p.2) with
    | none =>
      rw [hsc, Option.none_bind] at h
      exact absurd h (by simp)
    | some s =>
      rw [hsc, Option.some_bind] at h
      by_cases hg : p.1 * pe + pe ≤ cs
      · rw [if_pos hg] at h
        refine ih _ out ?_ h
        have hsl : s.length = pe := sumChunksExact_length pe _ s hsc
        rw [setSeg_length_of_le _ _ _ (by rw [hsl, hb]; exact hg)]
        exact hb
      · rw [if_neg hg] at h
        exact absurd h (by simp)

theorem mmSeg_length [Mul α] [Add α] [Zero α] (a b : Arr α) (r : Nat) :
    (mmSeg a b r).length = mmChunk a b := by
  unfold mmSeg
  cases h : innerRow a.shape.tail (a.rowSliceData r) b.shape.tail b
      (mmProdElems a b) (mmChunk a b) with
  | none => simp
  | some out =>
    unfold innerRow at h
    simp only [Option.getD_some]
    exact innerGo_length _ _ _ _ _ _ _ out (by simp) h


theorem perm_all_eq {γ : Type _} {l1 l2 : List γ} (hp : l1.Perm l2)
    (p : γ → Bool) : l1.all p = l2.all p := by
  induction hp with
  | nil => rfl
  | cons z hper ih => rw [List.all_cons, List.all_cons, ih]
  | swap x y l =>
    rw [List.all_cons, List.all_cons, List.all_cons, List.all_cons,
      ← Bool.and_assoc, ← Bool.and_assoc, Bool.and_comm (p y) (p x)]
  | trans h1 h2 ih1 ih2 => rw [ih1, ih2]

theorem foldl_perm_inv {β γ : Type _} {f : β → γ → β} {P : β → Prop} :
    ∀ {l1 l2 : List γ}, l1.Perm l2 →
      (∀ s x, x ∈ l1 → P s → P (f s x)) →
      (∀ s, P s → ∀ x, x ∈ l1 → ∀ y, y ∈ l1 → f (f s x) y = f (f s y) x) →
      ∀ s : β, P s → l1.foldl f s = l2.foldl f s := by
  intro l1 l2 hp
  induction hp with
  | nil =>
    intro _ _ s _
    rfl
  | cons z hper ih =>
    intro hpres hcomm s hs
    rw [List.foldl_cons, List.foldl_cons]
    exact ih (fun s2 x hx hs2 => hpres s2 x (List.mem_cons_of_mem z hx) hs2)
      (fun s2 hs2 x hx y hy => hcomm s2 hs2 x (List.mem_cons_of_mem z hx) y
        (List.mem_cons_of_mem z hy))
      _ (hpres s z (List.mem_cons_self z _) hs)
  | swap x y l =>
    intro hpres hcomm s hs
    rw [List.foldl_cons, List.foldl_cons, List.foldl_cons, List.foldl_cons,
      hcomm s hs y (List.mem_cons_self y _) x
        (List.mem_cons_of_mem y (List.mem_cons_self x _))]
  | trans h1 h2 ih1 ih2 =>
    intro hpres hcomm s hs
    rw [ih1 hpres hcomm s hs]
    exact ih2 (fun s2 x hx hs2 => hpres s2 x (h1.mem_iff.mpr hx) hs2)
      (fun s2 hs2 x hx y hy => hcomm s2 hs2 x (h1.mem_iff.mpr hx) y
        (h1.mem_iff.mpr hy)) s hs


/-- C8: matrix_mul is independent of the execution order of its row-pair
iteration: every order that is a permutation of the sequential one — in
particular every interleaving of the parallel path taken when either
operand exceeds 100 rows — produces the identical result. -/
theorem C8_matrix_mul_parallel [Mul α] [Add α] [Zero α] (a b : Arr α)
    (o : List Nat) (hp : o.Perm (List.range (mmPairCount a b))) :
    matrixMulWith o a b = matrix_mul a b := by
  unfold matrix_mul matrixMulWith
  by_cases h1 : shapePrefixesMatch a.shape.tail b.shape.tail = true
  case neg => rw [if_neg h1, if_neg h1]
  rw [if_pos h1, if_pos h1]
  by_cases h2 : mmChunk a b = 0
  case pos => rw [if_pos h2, if_pos h2]
  rw [if_neg h2, if_neg h2, perm_all_eq hp (mmOk a b)]
  by_cases h3 : (List.range (mmPairCount a b)).all (mmOk a b) = true
  case neg => rw [if_neg h3, if_neg h3]
  rw [if_pos h3, if_pos h3]
  have key : ∀ z ∈ o, z * mmChunk a b + mmChunk a b ≤ mmResLen a b := by
    intro z hz
    have hzlt : z < mmPairCount a b := List.mem_range.mp (hp.mem_iff.mp hz)
    have h4 : z < mmResLen a b / mmChunk a b := by
      unfold mmPairCount at hzlt
      rw [if_neg h2] at hzlt
      omega
    have h6 := (Nat.le_div_iff_mul_le
      (Nat.pos_of_ne_zero h2)).mp (Nat.succ_le_of_lt h4)
    rw [Nat.succ_mul] at h6
    exact h6
  refine congrArg some (congrArg _ ?_)
  refine foldl_perm_inv (P := fun buf => buf.length = mmResLen a b) hp
    ?_ ?_ _ (by simp)
  · intro s x hx hs
    rw [setSeg_length_of_le _ _ _ (by rw [mmSeg_length, hs]; exact key x hx)]
    exact hs
  · intro s hs x hx y hy
    by_cases hxy : x = y
    · rw [hxy]
    · rcases Nat.lt_or_ge x y with hlt | hge
      · exact setSeg_comm s (mmSeg a b x) (mmSeg a b y) _ _
          (by
            rw [mmSeg_length]
            calc x * mmChunk a b + mmChunk a b
                = (x + 1) * mmChunk a b := by rw [Nat.succ_mul]
              _ ≤ y * mmChunk a b := Nat.mul_le_mul_right _ hlt
          )
          (by rw [mmSeg_length, hs]; exact key y hy)
      · have hlt2 : y < x := by omega
        exact (setSeg_comm s (mmSeg a b y) (mmSeg a b x) _ _
          (by
            rw [mmSeg_length]
            calc y * mmChunk a b + mmChunk a b
                = (y + 1) * mmChunk a b := by rw [Nat.succ_mul]
              _ ≤ x * mmChunk a b := Nat.mul_le_mul_right _ hlt2
          )
          (by rw [mmSeg_length, hs]; exact key x hx)).symm

/-- Witness for C8: a 2x2 integer matrix product computed with the
reversed pair order equals the sequential result. -/
theorem C8_matrix_mul_parallel_witness :
    ([1, 0] : List Nat).Perm (List.range (mmPairCount
        (Arr.mk [2, 2] ([1, 2, 3, 4] : List Int)) (Arr.mk [2, 2] [5, 6, 7, 8]))) ∧
      matrixMulWith [1, 0] (Arr.mk [2, 2] ([1, 2, 3, 4] : List Int))
        (Arr.mk [2, 2] [5, 6, 7, 8]) =
        matrix_mul (Arr.mk [2, 2] ([1, 2, 3, 4] : List Int))
          (Arr.mk [2, 2] [5, 6, 7, 8]) :=
  ⟨by decide,
    C8_matrix_mul_parallel (Arr.mk [2, 2] ([1, 2, 3, 4] : List Int))
      (Arr.mk [2, 2] [5, 6, 7, 8]) [1, 0] (by decide)⟩


/-- Non-shape metadata of an array (ArrayMeta of array.rs): the label,
the two flag bits of ArrayFlags (BOOLEAN and BOOLEAN_LITERAL), the map
keys, the FFI pointer and the system handle kind (the latter two
abstracted to Nat).  The key structure itself lives in a module not
present under src and is Modelled from the spec as the list of key
values, one per row. -/
structure ArrayMeta where
  label : Option (List Char)
  boolean : Bool
  booleanLit : Bool
  mapKeys : Option (List Int)
  pointer : Option Nat
  handleKind : Option Nat
  deriving Repr, DecidableEq

/-- An array together with its metadata (the full Array<T> of array.rs:
shape, data and the optional meta). -/
structure MArr (α : Type _) where
  arr : Arr α
  meta : Option ArrayMeta
  deriving Repr, DecidableEq

/-- Modelled from the spec: MapKeys::rotate (the map module is not
present under src) — the keys of a map array are rotated by the same
leading-axis cyclic offset as the value rows. -/
def rotateKeys (off : Int) (keys : List Int) : List Int :=
  rotateData [off] [keys.length] keys

/-- Array::reset_meta_flags: ArrayFlags::reset clears both flag bits and
leaves every other field alone; missing metadata stays missing. -/
def resetMetaFlags (m : Option ArrayMeta) : Option ArrayMeta :=
  match m with
  | none => none
  | some m => some { m with boolean := false, booleanLit := false }

/-- Array::map_keys_mut as an update: only reachable when metadata with
keys is present. -/
def setMapKeys (m : Option ArrayMeta) (keys : List Int) : Option ArrayMeta :=
  match m with
  | none => none
  | some m => some { m with mapKeys := some keys }

/-- Value::rotate_depth followed by Array::rotate_depth at depth 0 on an
array carrying metadata: a zero-row rotation amount is a no-op; the data
path is rotateArr; the filled flag — set only when a fill exists and the
depth_slices callback actually ran (neither buffer empty) — resets the
meta flags; finally the map keys, when present, are rotated by the
leading offset by.data[0], which panics (none) when the amount has no
data. -/
def rotateMArr (k : Arr Int) (fill : Option α) (a : MArr α) :
    Option (MArr α) :=
  if k.rowCount = 0 then some a
  else
    (rotateArr k fill a.arr).bind fun out =>
      let m1 := match fill with
        | some _ =>
          if a.arr.shape.prod = 0 ∨ k.shape.prod = 0 then a.meta
          else resetMetaFlags a.meta
        | none => a.meta
      match m1.bind ArrayMeta.mapKeys with
      | none => some ⟨out, m1⟩
      | some keys =>
        match k.data with
        | [] => none
        | off :: _ => some ⟨out, setMapKeys m1 (rotateKeys off keys)⟩

/-- C9: rotating at depth 0 with no fill keeps the map keys present and
rotates them by the leading-axis offset (the head of the rotation
amount's data, the same offset applied to the value rows), and every
other metadata field — label, both boolean flags, pointer, handle kind —
is unchanged; the value part is exactly the rotateArr result. -/
theorem C9_rotate_map_keys (k : Arr Int) (a : MArr α) (m : ArrayMeta)
    (keys : List Int) (off : Int) (rest : List Int)
    (hm : a.meta = some m) (hk : m.mapKeys = some keys)
    (hd : k.data = off :: rest) (hrc : k.rowCount ≠ 0)
    (hr1 : k.shape.length ≤ 1) (hr2 : k.data.length ≤ a.arr.shape.length) :
    ∃ out : Arr α,
      rotateMArr k none a =
        some ⟨out, some { m with mapKeys := some (rotateKeys off keys) }⟩ ∧
      rotateArr k none a.arr = some out := by
  have hsome : ∃ out, rotateArr k none a.arr = some out := by
    unfold rotateArr
    by_cases h0 : a.arr.shape.prod = 0 ∨ k.shape.prod = 0
    · exact ⟨a.arr, by rw [if_pos h0]⟩
    · refine ⟨⟨a.arr.shape, rotateData k.data a.arr.shape a.arr.data⟩, ?_⟩
      rw [if_neg h0, if_neg (by omega), if_neg (by omega)]
  obtain ⟨out, hout⟩ := hsome
  refine ⟨out, ?_, hout⟩
  unfold rotateMArr
  rw [if_neg hrc, hout, Option.some_bind]
  simp only [hm, hk, hd, Option.some_bind, setMapKeys]

/-- Witness for C9: a scalar rotation amount 1 on a 3-row array with map
keys [7,8,9] and the BOOLEAN flag set: the keys come out rotated to
[8,9,7] and the flag survives. -/
theorem C9_rotate_map_keys_witness :
    (∃ out : Arr Nat,
      rotateMArr (Arr.mk [] [1]) none
        (MArr.mk (Arr.mk [3] [10, 20, 30])
          (some ⟨none, true, false, some [7, 8, 9], none, none⟩)) =
        some ⟨out, some ⟨none, true, false,
          some (rotateKeys 1 [7, 8, 9]), none, none⟩⟩ ∧
      rotateArr (Arr.mk [] [1]) none (Arr.mk [3] [10, 20, 30]) = some out) ∧
    rotateKeys 1 [7, 8, 9] = [8, 9, 7] :=
  ⟨C9_rotate_map_keys (Arr.mk [] [1])
      (MArr.mk (Arr.mk [3] [10, 20, 30])
        (some ⟨none, true, false, some [7, 8, 9], none, none⟩))
      ⟨none, true, false, some [7, 8, 9], none, none⟩
      [7, 8, 9] 1 [] rfl rfl rfl (by decide) (by decide) (by decide),
    by decide⟩


/-- The wildcard character sentinel WILDCARD_CHAR of array.rs
(U+E000). -/
def WILDCARD_CHAR : Char := Char.ofNat 0xE000

/-- ArrayCmp for char: array_eq holds when either side is the wildcard
sentinel or the characters coincide. -/
def charArrayEq (a b : Char) : Bool :=
  a == WILDCARD_CHAR || b == WILDCARD_CHAR || a == b

/-- PartialEq for Array over an element comparison eqf (the array_eq of
the elements' ArrayCmp): unequal shapes, then unequal map keys, are
early false returns; otherwise all zipped element pairs must satisfy
eqf. -/
def arrayBeq (eqf : α → α → Bool) (a b : MArr α) : Bool :=
  if a.arr.shape = b.arr.shape then
    if a.meta.bind ArrayMeta.mapKeys = b.meta.bind ArrayMeta.mapKeys then
      (a.arr.data.zip b.arr.data).all fun p => eqf p.1 p.2
    else false
  else false

/-- C10: the equality test accepts only arrays with equal shapes, equal
map keys and pairwise eqf-equal elements (so two arrays with identical
shape and data but different map keys compare unequal, by the second
conjunct). -/
theorem C10_array_eq (eqf : α → α → Bool) (a b : MArr α)
    (h : arrayBeq eqf a b = true) :
    a.arr.shape = b.arr.shape ∧
      a.meta.bind ArrayMeta.mapKeys = b.meta.bind ArrayMeta.mapKeys ∧
      ∀ p ∈ a.arr.data.zip b.arr.data, eqf p.1 p.2 = true := by
  unfold arrayBeq at h
  by_cases h1 : a.arr.shape = b.arr.shape
  · rw [if_pos h1] at h
    by_cases h2 : a.meta.bind ArrayMeta.mapKeys = b.meta.bind ArrayMeta.mapKeys
    · rw [if_pos h2] at h
      exact ⟨h1, h2, fun p hp => List.all_eq_true.mp h p hp⟩
    · rw [if_neg h2] at h
      exact absurd h (by simp)
  · rw [if_neg h1] at h
    exact absurd h (by simp)

/-- Witness for C10: a char array containing the wildcard equals a plain
char array with the same keys (theorem applied to extract the three
conjuncts), while the same arrays with different map keys compare
unequal. -/
theorem C10_array_eq_witness :
    arrayBeq charArrayEq
      (MArr.mk (Arr.mk [2] ['x', WILDCARD_CHAR])
        (some ⟨none, false, false, some [1, 2], none, none⟩))
      (MArr.mk (Arr.mk [2] ['x', 'y'])
        (some ⟨none, false, false, some [1, 2], none, none⟩)) = true ∧
    (∀ p ∈ (['x', WILDCARD_CHAR].zip ['x', 'y'] : List (Char × Char)),
      charArrayEq p.1 p.2 = true) ∧
    arrayBeq charArrayEq
      (MArr.mk (Arr.mk [2] ['x', 'y'])
        (some ⟨none, false, false, some [1, 2], none, none⟩))
      (MArr.mk (Arr.mk [2] ['x', 'y'])
        (some ⟨none, false, false, some [2, 1], none, none⟩)) = false :=
  ⟨by decide,
    (C10_array_eq charArrayEq
      (MArr.mk (Arr.mk [2] ['x', WILDCARD_CHAR])
        (some ⟨none, false, false, some [1, 2], none, none⟩))
      (MArr.mk (Arr.mk [2] ['x', 'y'])
        (some ⟨none, false, false, some [1, 2], none, none⟩))
      (by decide)).2.2,
    by decide⟩

end UiuaSpec
